import Mathlib

/-!
# Verification of the plotcraft generative-art geometry core

Shallow embedding of the geometry-generation routines of the plotcraft
repository (maze carving and solving, wave height fields, matrix projection
export filters, Voronoi site generation, wormhole profile curves, abstract
box generation), together with proofs and refutations of the specification
claims about them.

JavaScript numbers are modelled as real numbers; the p5.js trigonometric
functions in radian mode and the JavaScript `Math` functions both denote the
mathematical functions on `ℝ`.  Mutable arrays are modelled as functions with
pointwise update, and `Math.random()` as an explicit stream of choices.
-/

namespace Plotcraft

/-! ## Wireframe waves (`src/src/app/wireframe-waves/page.tsx`)

`calculateWaveValue` is the canvas-path formula (written against the p5
instance's trigonometry, which the sketch leaves in its default radian mode);
`calculateWaveValueSVG` is the export-path formula written against
`Math.sin`/`Math.asin`.  The wave parameters `waveFrequency` and `wavePhase`
are component state read by both functions, so they appear as arguments. -/

/-- JavaScript truncation toward zero (the rounding used by the `%`
remainder operator on numbers). -/
noncomputable def jsTrunc (x : ℝ) : ℤ := if 0 ≤ x then ⌊x⌋ else ⌈x⌉

/-- The JavaScript `%` remainder on real arguments:
`a % b = a - b * trunc (a / b)` (result carries the sign of the dividend). -/
noncomputable def jsMod (a b : ℝ) : ℝ := a - b * jsTrunc (a / b)

/-- The four wave shapes of the `WaveType` union. -/
inductive WaveType
  | sine
  | triangle
  | square
  | sawtooth
deriving DecidableEq

/-- The `switch (waveType)` block shared by both wave formulas: the waveform
term evaluated at the combined wave input, before the cross-wave is added. -/
noncomputable def waveformTerm : WaveType → ℝ → ℝ
  | .sine, waveInput => Real.sin waveInput
  | .triangle, waveInput => (2 / Real.pi) * Real.arcsin (Real.sin waveInput)
  | .square, waveInput => if 0 < Real.sin waveInput then 1 else -1
  | .sawtooth, waveInput => (2 / Real.pi) * (jsMod waveInput (2 * Real.pi) - Real.pi)

/-- `calculateWaveValue` (canvas path, p5 trigonometry in radian mode). -/
noncomputable def calculateWaveValue (waveType : WaveType)
    (waveFrequency wavePhase : ℝ) (x z time : ℝ) : ℝ :=
  let waveInput := z * waveFrequency + x * 0.003 + wavePhase + time
  let waveValue : ℝ :=
    match waveType with
    | .sine => Real.sin waveInput
    | .triangle => (2 / Real.pi) * Real.arcsin (Real.sin waveInput)
    | .square => if 0 < Real.sin waveInput then 1 else -1
    | .sawtooth => (2 / Real.pi) * (jsMod waveInput (2 * Real.pi) - Real.pi)
  let crossWave := Real.sin (x * 0.01 + time * 0.5) * 0.3
  waveValue + crossWave

/-- `calculateWaveValueSVG` (export path, `Math.sin` / `Math.asin` / `Math.PI`). -/
noncomputable def calculateWaveValueSVG (waveType : WaveType)
    (waveFrequency wavePhase : ℝ) (x z time : ℝ) : ℝ :=
  let waveInput := z * waveFrequency + x * 0.003 + wavePhase + time
  let waveValue : ℝ :=
    match waveType with
    | .sine => Real.sin waveInput
    | .triangle => (2 / Real.pi) * Real.arcsin (Real.sin waveInput)
    | .square => if 0 < Real.sin waveInput then 1 else -1
    | .sawtooth => (2 / Real.pi) * (jsMod waveInput (2 * Real.pi) - Real.pi)
  let crossWave := Real.sin (x * 0.01 + time * 0.5) * 0.3
  waveValue + crossWave

theorem calculateWaveValue_eq_waveformTerm (waveType : WaveType)
    (waveFrequency wavePhase x z time : ℝ) :
    calculateWaveValue waveType waveFrequency wavePhase x z time =
      waveformTerm waveType (z * waveFrequency + x * 0.003 + wavePhase + time) +
        Real.sin (x * 0.01 + time * 0.5) * 0.3 := by
  cases waveType <;> rfl

theorem jsTrunc_zero : jsTrunc 0 = 0 := by
  simp [jsTrunc]

theorem jsMod_zero_left (b : ℝ) : jsMod 0 b = 0 := by
  simp [jsMod, jsTrunc_zero]

theorem waveformTerm_sine_zero : waveformTerm WaveType.sine 0 = 0 := by
  simp [waveformTerm]

theorem waveformTerm_triangle_zero : waveformTerm WaveType.triangle 0 = 0 := by
  simp [waveformTerm]

theorem waveformTerm_square_zero : waveformTerm WaveType.square 0 = -1 := by
  simp [waveformTerm]

theorem waveformTerm_sawtooth_zero : waveformTerm WaveType.sawtooth 0 = -2 := by
  have hpi : (Real.pi : ℝ) ≠ 0 := Real.pi_ne_zero
  simp only [waveformTerm, jsMod_zero_left, zero_sub]
  field_simp

/-- C4: for every wave type and all real inputs, the canvas-path formula
`calculateWaveValue` (p5 trigonometry, radian mode) and the export-path
formula `calculateWaveValueSVG` (`Math.sin`/`Math.asin`) compute equal
values: the interactive canvas and the exported vector file evaluate the
same height field. -/
theorem wave_canvas_eq_svg (waveType : WaveType)
    (waveFrequency wavePhase x z time : ℝ) :
    calculateWaveValue waveType waveFrequency wavePhase x z time =
      calculateWaveValueSVG waveType waveFrequency wavePhase x z time := by
  cases waveType <;> rfl

/-- C5 (counterexample): at combined wave input `0` the waveform term is `-1`
for the square wave (since `sin 0 = 0` is not `> 0`, the `>0 ? 1 : -1`
tie-break yields `-1`, not `1`) and `-2` for the sawtooth wave (the centered
modulo gives `(2/π)·(0 - π) = -2`, not `0`), refuting the claimed values. -/
theorem wave_zero_claim_false :
    ¬ (waveformTerm WaveType.square 0 = 1 ∧ waveformTerm WaveType.sawtooth 0 = 0) := by
  rw [waveformTerm_square_zero, waveformTerm_sawtooth_zero]
  intro h
  norm_num at h

/-- C5 (amended): when the combined wave input equals `0`, the waveform term
(before the cross-wave is added) equals `0` for sine and triangle, `-1` for
square (by the `>0 ? 1 : -1` convention, since `sin 0 = 0` is not `> 0`),
and `-2` for sawtooth (the centered modulo maps input `0` to the lower end
of its range). -/
theorem wave_zero_boundary (waveType : WaveType) (input : ℝ) (h : input = 0) :
    waveformTerm waveType input =
      match waveType with
      | .sine => 0
      | .triangle => 0
      | .square => -1
      | .sawtooth => -2 := by
  subst h
  cases waveType
  · exact waveformTerm_sine_zero
  · exact waveformTerm_triangle_zero
  · exact waveformTerm_square_zero
  · exact waveformTerm_sawtooth_zero

theorem wave_zero_boundary_witness :
    (0 : ℝ) = 0 ∧ waveformTerm WaveType.square 0 = -1 :=
  ⟨rfl, wave_zero_boundary WaveType.square 0 rfl⟩

/-! ## Matrix projection and SVG export filtering
(`src/src/app/mountain-generator/page.tsx`, the wormhole generator page, and
`src/src/app/abstract-boxes/page.tsx`)

All three matrix-projection exporters share `project3DTo2D`: multiply the
point (with homogeneous coordinate 1) by the column-major model-view matrix
`mvMatrix.mat4`, then by the projection matrix, divide by the clip-space `w`
component (failing when it is zero), and map normalized device coordinates
to an 800×600 screen with Y flipped. -/

/-- A 3D point (`p5.Vector`). -/
structure Vec3 where
  x : ℝ
  y : ℝ
  z : ℝ

/-- A projected point: screen coordinates plus post-divide depth (`ndcZ`). -/
structure Proj2D where
  x : ℝ
  y : ℝ
  z : ℝ

/-- A cached 3D line segment. -/
structure Seg3 where
  v1 : Vec3
  v2 : Vec3

/-- Canvas width shared by the projection-based generators. -/
def canvasW : ℝ := 800

/-- Canvas height shared by the projection-based generators. -/
def canvasH : ℝ := 600

/-- `project3DTo2D`: a 4×4 matrix is stored column-major as `mat4`, indexed
`mat4[column*4 + row]`; the code computes `eyePos = MV * point` and
`clipPos = P * eyePos` exactly as unrolled below, returns `null` when
`clipPos[3] = 0`, and otherwise maps NDC to screen pixels with Y flipped. -/
noncomputable def project3DTo2D (mvMatrix projMatrix : ℕ → ℝ) (point3D : Vec3) : Option Proj2D :=
  let eye0 := mvMatrix 0 * point3D.x + mvMatrix 4 * point3D.y + mvMatrix 8 * point3D.z + mvMatrix 12
  let eye1 := mvMatrix 1 * point3D.x + mvMatrix 5 * point3D.y + mvMatrix 9 * point3D.z + mvMatrix 13
  let eye2 := mvMatrix 2 * point3D.x + mvMatrix 6 * point3D.y + mvMatrix 10 * point3D.z + mvMatrix 14
  let eye3 := mvMatrix 3 * point3D.x + mvMatrix 7 * point3D.y + mvMatrix 11 * point3D.z + mvMatrix 15
  let clip0 := projMatrix 0 * eye0 + projMatrix 4 * eye1 + projMatrix 8 * eye2 + projMatrix 12 * eye3
  let clip1 := projMatrix 1 * eye0 + projMatrix 5 * eye1 + projMatrix 9 * eye2 + projMatrix 13 * eye3
  let clip2 := projMatrix 2 * eye0 + projMatrix 6 * eye1 + projMatrix 10 * eye2 + projMatrix 14 * eye3
  let clip3 := projMatrix 3 * eye0 + projMatrix 7 * eye1 + projMatrix 11 * eye2 + projMatrix 15 * eye3
  if clip3 = 0 then none
  else
    let ndcX := clip0 / clip3
    let ndcY := clip1 / clip3
    let ndcZ := clip2 / clip3
    some ⟨(ndcX + 1) / 2 * canvasW, (1 - ndcY) / 2 * canvasH, ndcZ⟩

/-- `nearClipBuffer` of the mountain and abstract-box exporters:
`Math.max(canvasSize.width, canvasSize.height) * 0.5`. -/
def nearClipBuffer : ℝ := max canvasW canvasH * 0.5

/-- The generous visibility box of the mountain and abstract-box exporters:
`nearClipBuffer` on both axes. -/
def visibleMaxBuffer (p : Proj2D) : Prop :=
  -nearClipBuffer ≤ p.x ∧ p.x ≤ canvasW + nearClipBuffer ∧
    -nearClipBuffer ≤ p.y ∧ p.y ≤ canvasH + nearClipBuffer

/-- The generous visibility box of the wormhole exporter: half of each
respective canvas dimension beyond each edge. -/
def visiblePerAxis (p : Proj2D) : Prop :=
  -(canvasW * 0.5) ≤ p.x ∧ p.x ≤ canvasW * 1.5 ∧
    -(canvasH * 0.5) ≤ p.y ∧ p.y ≤ canvasH * 1.5

noncomputable instance (p : Proj2D) : Decidable (visibleMaxBuffer p) := by
  unfold visibleMaxBuffer; infer_instance

noncomputable instance (p : Proj2D) : Decidable (visiblePerAxis p) := by
  unfold visiblePerAxis; infer_instance

/-- The per-segment keep/drop decision of the mountain and abstract-box
`exportSVG` loops: project both endpoints, and emit the line exactly when
both projections succeed, both depths are `< 1`, and at least one endpoint
is inside the generous visibility box. -/
noncomputable def exportDecisionMax (mvMatrix projMatrix : ℕ → ℝ) (seg : Seg3) :
    Option (Proj2D × Proj2D) :=
  match project3DTo2D mvMatrix projMatrix seg.v1, project3DTo2D mvMatrix projMatrix seg.v2 with
  | some p1, some p2 =>
      if p1.z < 1 ∧ p2.z < 1 ∧ (visibleMaxBuffer p1 ∨ visibleMaxBuffer p2) then some (p1, p2)
      else none
  | _, _ => none

/-- The per-segment keep/drop decision of the wormhole `exportSVG` loop. -/
noncomputable def exportDecisionWormhole (mvMatrix projMatrix : ℕ → ℝ) (seg : Seg3) :
    Option (Proj2D × Proj2D) :=
  match project3DTo2D mvMatrix projMatrix seg.v1, project3DTo2D mvMatrix projMatrix seg.v2 with
  | some p1, some p2 =>
      if p1.z < 1 ∧ p2.z < 1 ∧ (visiblePerAxis p1 ∨ visiblePerAxis p2) then some (p1, p2)
      else none
  | _, _ => none

/-- The list of line endpoints written by the mountain exporter's loop over
the segment cache. -/
noncomputable def exportSegmentsMountain (mvMatrix projMatrix : ℕ → ℝ) (cache : List Seg3) :
    List (Proj2D × Proj2D) :=
  cache.filterMap (exportDecisionMax mvMatrix projMatrix)

/-- The list of line endpoints written by the wormhole exporter's loop over
the segment cache. -/
noncomputable def exportSegmentsWormhole (mvMatrix projMatrix : ℕ → ℝ) (cache : List Seg3) :
    List (Proj2D × Proj2D) :=
  cache.filterMap (exportDecisionWormhole mvMatrix projMatrix)

theorem exportDecisionMax_eq_some (mvMatrix projMatrix : ℕ → ℝ) (seg : Seg3)
    (p1 p2 : Proj2D) :
    exportDecisionMax mvMatrix projMatrix seg = some (p1, p2) ↔
      project3DTo2D mvMatrix projMatrix seg.v1 = some p1 ∧
      project3DTo2D mvMatrix projMatrix seg.v2 = some p2 ∧
      p1.z < 1 ∧ p2.z < 1 ∧ (visibleMaxBuffer p1 ∨ visibleMaxBuffer p2) := by
  unfold exportDecisionMax
  rcases h1 : project3DTo2D mvMatrix projMatrix seg.v1 with _ | q1 <;>
    rcases h2 : project3DTo2D mvMatrix projMatrix seg.v2 with _ | q2 <;>
      simp only [Option.some.injEq, reduceCtorEq, false_and, and_false, iff_false,
        not_false_iff]
  by_cases hc : q1.z < 1 ∧ q2.z < 1 ∧ (visibleMaxBuffer q1 ∨ visibleMaxBuffer q2)
  · rw [if_pos hc]
    simp only [Option.some.injEq, Prod.mk.injEq]
    constructor
    · rintro ⟨rfl, rfl⟩
      exact ⟨rfl, rfl, hc⟩
    · rintro ⟨rfl, rfl, _⟩
      exact ⟨rfl, rfl⟩
  · rw [if_neg hc]
    constructor
    · intro h
      exact absurd h (by simp)
    · rintro ⟨rfl, rfl, h⟩
      exact absurd h hc

theorem exportDecisionWormhole_eq_some (mvMatrix projMatrix : ℕ → ℝ) (seg : Seg3)
    (p1 p2 : Proj2D) :
    exportDecisionWormhole mvMatrix projMatrix seg = some (p1, p2) ↔
      project3DTo2D mvMatrix projMatrix seg.v1 = some p1 ∧
      project3DTo2D mvMatrix projMatrix seg.v2 = some p2 ∧
      p1.z < 1 ∧ p2.z < 1 ∧ (visiblePerAxis p1 ∨ visiblePerAxis p2) := by
  unfold exportDecisionWormhole
  rcases h1 : project3DTo2D mvMatrix projMatrix seg.v1 with _ | q1 <;>
    rcases h2 : project3DTo2D mvMatrix projMatrix seg.v2 with _ | q2 <;>
      simp only [Option.some.injEq, reduceCtorEq, false_and, and_false, iff_false,
        not_false_iff]
  by_cases hc : q1.z < 1 ∧ q2.z < 1 ∧ (visiblePerAxis q1 ∨ visiblePerAxis q2)
  · rw [if_pos hc]
    simp only [Option.some.injEq, Prod.mk.injEq]
    constructor
    · rintro ⟨rfl, rfl⟩
      exact ⟨rfl, rfl, hc⟩
    · rintro ⟨rfl, rfl, _⟩
      exact ⟨rfl, rfl⟩
  · rw [if_neg hc]
    constructor
    · intro h
      exact absurd h (by simp)
    · rintro ⟨rfl, rfl, h⟩
      exact absurd h hc

/-- A generated wireframe box (`Box3D`): position, dimensions, per-instance
Euler rotation angles, and its 12 cached edge segments. -/
structure Box3D where
  position : Vec3
  width : ℝ
  height : ℝ
  depth : ℝ
  rotation : Vec3
  lines : List Seg3

/-- The abstract-box exporter's nested loop over the box cache: every cached
box's line segments pass through the same keep/drop decision as the mountain
exporter (same `nearClipBuffer`). -/
noncomputable def exportSegmentsBoxes (mvMatrix projMatrix : ℕ → ℝ) (cache : List Box3D) :
    List (Proj2D × Proj2D) :=
  cache.flatMap (fun box => box.lines.filterMap (exportDecisionMax mvMatrix projMatrix))

/-- The margin box of the mountain/abstract-box exporters, written out from
the spec's description: half of the larger canvas dimension (400 logical
units) beyond each canvas edge. -/
def inGenerousMarginMax (p : Proj2D) : Prop :=
  -400 ≤ p.x ∧ p.x ≤ 1200 ∧ -400 ≤ p.y ∧ p.y ≤ 1000

/-- The margin box of the wormhole exporter, written out from the spec's
description: half of each canvas dimension beyond the respective edges. -/
def inGenerousMarginPerAxis (p : Proj2D) : Prop :=
  -400 ≤ p.x ∧ p.x ≤ 1200 ∧ -300 ≤ p.y ∧ p.y ≤ 900

theorem visibleMaxBuffer_iff (p : Proj2D) : visibleMaxBuffer p ↔ inGenerousMarginMax p := by
  unfold visibleMaxBuffer inGenerousMarginMax nearClipBuffer canvasW canvasH
  norm_num

theorem visiblePerAxis_iff (p : Proj2D) : visiblePerAxis p ↔ inGenerousMarginPerAxis p := by
  unfold visiblePerAxis inGenerousMarginPerAxis canvasW canvasH
  norm_num

/-- C6: in the matrix-projection exporters, a cached 3D segment appears in
the SVG output (with its projected endpoints written unmodified, never
clipped) if and only if both endpoints project successfully, both have
post-divide depth strictly below `1`, and at least one endpoint lies in the
generous margin box around the 800×600 canvas — half the larger canvas
dimension beyond each edge for the mountain/abstract-box exporters, half of
each respective dimension for the wormhole exporter. -/
theorem export_segment_kept_iff (mvMatrix projMatrix : ℕ → ℝ) (cache : List Seg3)
    (boxCache : List Box3D) (p1 p2 : Proj2D) :
    ((p1, p2) ∈ exportSegmentsMountain mvMatrix projMatrix cache ↔
      ∃ seg ∈ cache,
        project3DTo2D mvMatrix projMatrix seg.v1 = some p1 ∧
        project3DTo2D mvMatrix projMatrix seg.v2 = some p2 ∧
        p1.z < 1 ∧ p2.z < 1 ∧ (inGenerousMarginMax p1 ∨ inGenerousMarginMax p2)) ∧
    ((p1, p2) ∈ exportSegmentsWormhole mvMatrix projMatrix cache ↔
      ∃ seg ∈ cache,
        project3DTo2D mvMatrix projMatrix seg.v1 = some p1 ∧
        project3DTo2D mvMatrix projMatrix seg.v2 = some p2 ∧
        p1.z < 1 ∧ p2.z < 1 ∧ (inGenerousMarginPerAxis p1 ∨ inGenerousMarginPerAxis p2)) ∧
    ((p1, p2) ∈ exportSegmentsBoxes mvMatrix projMatrix boxCache ↔
      ∃ box ∈ boxCache, ∃ seg ∈ box.lines,
        project3DTo2D mvMatrix projMatrix seg.v1 = some p1 ∧
        project3DTo2D mvMatrix projMatrix seg.v2 = some p2 ∧
        p1.z < 1 ∧ p2.z < 1 ∧ (inGenerousMarginMax p1 ∨ inGenerousMarginMax p2)) := by
  refine ⟨?_, ?_, ?_⟩
  · rw [exportSegmentsMountain, List.mem_filterMap]
    constructor
    · rintro ⟨seg, hmem, hdec⟩
      rw [exportDecisionMax_eq_some] at hdec
      exact ⟨seg, hmem, hdec.1, hdec.2.1, hdec.2.2.1, hdec.2.2.2.1,
        by rw [← visibleMaxBuffer_iff, ← visibleMaxBuffer_iff]; exact hdec.2.2.2.2⟩
    · rintro ⟨seg, hmem, h1, h2, hz1, hz2, hvis⟩
      refine ⟨seg, hmem, ?_⟩
      rw [exportDecisionMax_eq_some]
      exact ⟨h1, h2, hz1, hz2,
        by rw [visibleMaxBuffer_iff, visibleMaxBuffer_iff]; exact hvis⟩
  · rw [exportSegmentsWormhole, List.mem_filterMap]
    constructor
    · rintro ⟨seg, hmem, hdec⟩
      rw [exportDecisionWormhole_eq_some] at hdec
      exact ⟨seg, hmem, hdec.1, hdec.2.1, hdec.2.2.1, hdec.2.2.2.1,
        by rw [← visiblePerAxis_iff, ← visiblePerAxis_iff]; exact hdec.2.2.2.2⟩
    · rintro ⟨seg, hmem, h1, h2, hz1, hz2, hvis⟩
      refine ⟨seg, hmem, ?_⟩
      rw [exportDecisionWormhole_eq_some]
      exact ⟨h1, h2, hz1, hz2,
        by rw [visiblePerAxis_iff, visiblePerAxis_iff]; exact hvis⟩
  · rw [exportSegmentsBoxes, List.mem_flatMap]
    constructor
    · rintro ⟨box, hbox, hmem⟩
      rw [List.mem_filterMap] at hmem
      obtain ⟨seg, hseg, hdec⟩ := hmem
      rw [exportDecisionMax_eq_some] at hdec
      exact ⟨box, hbox, seg, hseg, hdec.1, hdec.2.1, hdec.2.2.1, hdec.2.2.2.1,
        by rw [← visibleMaxBuffer_iff, ← visibleMaxBuffer_iff]; exact hdec.2.2.2.2⟩
    · rintro ⟨box, hbox, seg, hseg, h1, h2, hz1, hz2, hvis⟩
      refine ⟨box, hbox, ?_⟩
      rw [List.mem_filterMap]
      refine ⟨seg, hseg, ?_⟩
      rw [exportDecisionMax_eq_some]
      exact ⟨h1, h2, hz1, hz2,
        by rw [visibleMaxBuffer_iff, visibleMaxBuffer_iff]; exact hvis⟩

/-! ## Wormhole profile curve (`src/unnamed/part_000`, `generateHyperboloidLines`)

The wormhole mesh is a parametric `(u, v)` grid; for each ring `i` the code
computes a normalized position `v = i / gridDensityV`, chooses the reference
mouth radius of the corresponding half of the profile, blends it with the
throat radius by `Math.pow(t_profile, profileExponent)` after clamping
`t_profile` into `[0, 1]`, and places `gridDensityU` points on a circle of
that radius. -/

/-- The `WormholeParameters` configuration object. -/
structure WormholeParams where
  gridDensityU : ℕ
  gridDensityV : ℕ
  mouthRadius1 : ℝ
  mouthRadius2 : ℝ
  throatRadius : ℝ
  throatPosition : ℝ
  length : ℝ
  profileExponent : ℝ
  strokeWeight : ℝ
  initialRotationX : ℝ
  initialRotationY : ℝ
  initialRotationZ : ℝ

/-- The ring radius computed inside `generateHyperboloidLines` for a
normalized position `v` along the wormhole axis (the
`currentReferenceMouthRadius` / `t_profile` / `currentRadius` block,
including the `throatPosition ∈ {0, 1}` edge-case guards and the clamp). -/
noncomputable def ringRadius (P : WormholeParams) (v : ℝ) : ℝ :=
  let currentReferenceMouthRadius := if v < P.throatPosition then P.mouthRadius1 else P.mouthRadius2
  let tRaw : ℝ :=
    if P.throatPosition = 0 ∧ v = 0 then 0
    else if P.throatPosition = 1 ∧ v = 1 then 0
    else if v ≤ P.throatPosition then
      (if P.throatPosition = 0 then 0 else 1 - v / P.throatPosition)
    else
      (if P.throatPosition = 1 then 0 else (v - P.throatPosition) / (1 - P.throatPosition))
  let tProfile := min 1 (max 0 tRaw)
  P.throatRadius + (currentReferenceMouthRadius - P.throatRadius) * tProfile ^ P.profileExponent

/-- One grid point of the wormhole mesh: ring `i` (of `gridDensityV + 1`),
angular sample `j` (of `gridDensityU`). -/
noncomputable def hyperboloidPoint (P : WormholeParams) (i j : ℕ) : Vec3 :=
  let v := (i : ℝ) / P.gridDensityV
  let z := -P.length / 2 + v * P.length
  let u := (j : ℝ) / P.gridDensityU
  let angle := u * (2 * Real.pi)
  ⟨ringRadius P v * Real.cos angle, ringRadius P v * Real.sin angle, z⟩

/-- `generateHyperboloidLines`: connect every grid point to the next ring and
to the next angular sample (wrapping around the angular axis), plus the
closing ring at `i = gridDensityV`. -/
noncomputable def generateHyperboloidLines (P : WormholeParams) : List Seg3 :=
  ((List.range P.gridDensityV).flatMap fun i =>
    (List.range P.gridDensityU).flatMap fun j =>
      [⟨hyperboloidPoint P i j, hyperboloidPoint P (i + 1) j⟩,
       ⟨hyperboloidPoint P i j, hyperboloidPoint P i ((j + 1) % P.gridDensityU)⟩]) ++
  (if 0 < P.gridDensityV then
    (List.range P.gridDensityU).map fun j =>
      ⟨hyperboloidPoint P P.gridDensityV j,
       hyperboloidPoint P P.gridDensityV ((j + 1) % P.gridDensityU)⟩
   else [])

/-- C9: with `0 < throatPosition < 1` and `profileExponent > 0`, the ring
radius equals `mouthRadius1` at `v = 0`, `throatRadius` at
`v = throatPosition`, `mouthRadius2` at `v = 1`, and at every `v` it equals
`throatRadius + (referenceMouthRadius - throatRadius) * t ^ profileExponent`
where `t` is the normalized distance from the throat within the
corresponding half of the profile, clamped to `[0, 1]`. -/
theorem wormhole_ring_radius (P : WormholeParams)
    (h0 : 0 < P.throatPosition) (h1 : P.throatPosition < 1)
    (hexp : 0 < P.profileExponent) :
    ringRadius P 0 = P.mouthRadius1 ∧
    ringRadius P P.throatPosition = P.throatRadius ∧
    ringRadius P 1 = P.mouthRadius2 ∧
    ∀ v : ℝ, ringRadius P v =
      P.throatRadius +
        ((if v < P.throatPosition then P.mouthRadius1 else P.mouthRadius2) - P.throatRadius) *
          (min 1 (max 0
            (if v ≤ P.throatPosition then (P.throatPosition - v) / P.throatPosition
             else (v - P.throatPosition) / (1 - P.throatPosition)))) ^ P.profileExponent := by
  have htp0 : P.throatPosition ≠ 0 := ne_of_gt h0
  have htp1 : P.throatPosition ≠ 1 := ne_of_lt h1
  have hformula : ∀ v : ℝ, ringRadius P v =
      P.throatRadius +
        ((if v < P.throatPosition then P.mouthRadius1 else P.mouthRadius2) - P.throatRadius) *
          (min 1 (max 0
            (if v ≤ P.throatPosition then (P.throatPosition - v) / P.throatPosition
             else (v - P.throatPosition) / (1 - P.throatPosition)))) ^ P.profileExponent := by
    intro v
    have e0 : ¬(P.throatPosition = 0 ∧ v = 0) := fun h => htp0 h.1
    have e1 : ¬(P.throatPosition = 1 ∧ v = 1) := fun h => htp1 h.1
    simp only [ringRadius, if_neg e0, if_neg e1, if_neg htp0, if_neg htp1]
    by_cases hv : v ≤ P.throatPosition
    · rw [if_pos hv, if_pos hv]
      have hdiv : 1 - v / P.throatPosition = (P.throatPosition - v) / P.throatPosition := by
        field_simp
      rw [hdiv]
    · rw [if_neg hv, if_neg hv]
  refine ⟨?_, ?_, ?_, hformula⟩
  · rw [hformula 0]
    rw [if_pos h0, if_pos (le_of_lt h0)]
    have : (P.throatPosition - 0) / P.throatPosition = 1 := by
      rw [sub_zero]; exact div_self htp0
    rw [this]
    norm_num [Real.one_rpow]
  · rw [hformula P.throatPosition]
    rw [if_neg (lt_irrefl _), if_pos le_rfl, sub_self, zero_div]
    norm_num [Real.zero_rpow (ne_of_gt hexp)]
  · rw [hformula 1]
    rw [if_neg (not_lt.mpr (le_of_lt h1)), if_neg (not_le.mpr h1)]
    have : (1 - P.throatPosition) / (1 - P.throatPosition) = 1 :=
      div_self (sub_ne_zero.mpr (Ne.symm htp1))
    rw [this]
    norm_num [Real.one_rpow]

theorem wormhole_ring_radius_witness :
    (0 : ℝ) < (1 : ℝ) / 2 ∧ (1 : ℝ) / 2 < 1 ∧ (0 : ℝ) < 3 / 2 ∧
      ringRadius ⟨24, 30, 150, 120, 50, 1 / 2, 400, 3 / 2, 1, 30, -30, 0⟩ 0 = 150 :=
  ⟨by norm_num, by norm_num, by norm_num,
    (wormhole_ring_radius ⟨24, 30, 150, 120, 50, 1 / 2, 400, 3 / 2, 1, 30, -30, 0⟩
      (by norm_num) (by norm_num) (by norm_num)).1⟩

/-! ## Deterministic RNG

Models the seeded linear congruential generator behind `p5.randomSeed` /
`p5.random` (the RNG itself is library code external to the repository; the
repository's contract is only that re-seeding makes subsequent draws a pure
function of the seed).  The determinism claims hold for the concrete LCG
below exactly as they would for any deterministic seeded generator. -/

/-- LCG modulus `2^32`. -/
def lcgM : ℕ := 4294967296

/-- LCG multiplier. -/
def lcgA : ℕ := 1664525

/-- LCG increment. -/
def lcgC : ℕ := 1013904223

/-- The p5 instance's random-generator state: mutable across calls and
across generation runs, overwritten by `randomSeed`. -/
structure Rng where
  state : ℕ

/-- `p5.randomSeed(seed)`: reset the generator state from the seed. -/
def seedRng (seed : ℕ) : Rng := ⟨seed % lcgM⟩

/-- One generator step: advance the state, produce a uniform value in `[0, 1)`. -/
noncomputable def Rng.next (r : Rng) : ℝ × Rng :=
  let s := (lcgA * r.state + lcgC) % lcgM
  ((s : ℝ) / lcgM, ⟨s⟩)

/-- `p5.random(min, max)`: `min + u * (max - min)` with `u` the next uniform
draw. -/
noncomputable def p5random (r : Rng) (lo hi : ℝ) : ℝ × Rng :=
  let q := r.next
  (lo + q.1 * (hi - lo), q.2)

theorem Rng.next_mem (r : Rng) : 0 ≤ r.next.1 ∧ r.next.1 < 1 := by
  unfold Rng.next
  constructor
  · positivity
  · rw [div_lt_one (by norm_num [lcgM])]
    exact_mod_cast Nat.mod_lt _ (by norm_num [lcgM])

theorem p5random_mem (r : Rng) (lo hi : ℝ) (h : lo ≤ hi) :
    lo ≤ (p5random r lo hi).1 ∧ (p5random r lo hi).1 ≤ hi := by
  obtain ⟨hu0, hu1⟩ := r.next_mem
  constructor
  · show lo ≤ lo + r.next.1 * (hi - lo)
    have : 0 ≤ r.next.1 * (hi - lo) := mul_nonneg hu0 (by linarith)
    linarith
  · show lo + r.next.1 * (hi - lo) ≤ hi
    have : r.next.1 * (hi - lo) ≤ 1 * (hi - lo) :=
      mul_le_mul_of_nonneg_right (le_of_lt hu1) (by linarith)
    linarith

/-! ## Voronoi site generation (`src/src/app/voronoi-diagram/page.tsx`) -/

/-- The `VoronoiParameters` configuration object. -/
inductive DistributionType
  | random
  | uniform
  | clustered
deriving DecidableEq

/-- The flat parameter object of the Voronoi generator. -/
structure VoronoiParameters where
  numPoints : ℕ
  boundaryMargin : ℝ
  minDistance : ℝ
  distributionType : DistributionType
  clusterFactor : ℝ

/-- `p5.constrain(n, low, high) = max(min(n, high), low)`. -/
noncomputable def constrain (n low high : ℝ) : ℝ := max (min n high) low

/-- Euclidean distance between two sites, as computed inside the
minimum-distance filter (`Math.sqrt` of summed squared differences). -/
noncomputable def pointDist (p existing : ℝ × ℝ) : ℝ :=
  Real.sqrt ((p.1 - existing.1) ^ 2 + (p.2 - existing.2) ^ 2)

/-- The inner scan of the minimum-distance filter: `point` is too close when
some already-kept point is at distance strictly below the threshold. -/
def TooClose (minDistance : ℝ) (filteredPoints : List (ℝ × ℝ)) (point : ℝ × ℝ) : Prop :=
  ∃ existing ∈ filteredPoints, pointDist point existing < minDistance

noncomputable instance (minDistance : ℝ) (filteredPoints : List (ℝ × ℝ)) (point : ℝ × ℝ) :
    Decidable (TooClose minDistance filteredPoints point) := by
  unfold TooClose
  exact List.decidableBEx _ _

/-- The minimum-distance filter loop: scan candidates in generation order,
appending a candidate to `filteredPoints` unless it is too close. -/
noncomputable def minDistanceFilterGo (minDistance : ℝ) :
    List (ℝ × ℝ) → List (ℝ × ℝ) → List (ℝ × ℝ)
  | filteredPoints, [] => filteredPoints
  | filteredPoints, point :: rest =>
      if TooClose minDistance filteredPoints point then
        minDistanceFilterGo minDistance filteredPoints rest
      else
        minDistanceFilterGo minDistance (filteredPoints ++ [point]) rest

/-- The `minDistance > 0` branch of `generatePoints`. -/
noncomputable def minDistanceFilter (minDistance : ℝ) (points : List (ℝ × ℝ)) :
    List (ℝ × ℝ) :=
  minDistanceFilterGo minDistance [] points

/-- The `'random'` branch of `generatePoints`: `numPoints` sites drawn
uniformly inside the margin-inset rectangle (x then y for each site). -/
noncomputable def randomPts (margin : ℝ) : ℕ → Rng → List (ℝ × ℝ) × Rng
  | 0, r => ([], r)
  | n + 1, r =>
      let q1 := p5random r margin (canvasW - margin)
      let q2 := p5random q1.2 margin (canvasH - margin)
      let rest := randomPts margin n q2.2
      ((q1.1, q2.1) :: rest.1, rest.2)

/-- Column count of the `'uniform'` branch:
`Math.ceil(Math.sqrt(numPoints * (width / height)))`. -/
noncomputable def uniformCols (numPoints : ℕ) (width height : ℝ) : ℕ :=
  (⌈Real.sqrt (numPoints * (width / height))⌉).toNat

/-- Row count of the `'uniform'` branch: `Math.ceil(numPoints / cols)`. -/
noncomputable def uniformRows (numPoints cols : ℕ) : ℕ :=
  (⌈(numPoints : ℝ) / (cols : ℝ)⌉).toNat

/-- The `'uniform'` branch loop from index `i`, generating `n` more sites:
jittered cell centers of a `cols`-wide grid, jitter up to 30% of a cell. -/
noncomputable def uniformPts (margin cellWidth cellHeight : ℝ) (cols : ℕ) :
    ℕ → ℕ → Rng → List (ℝ × ℝ) × Rng
  | _, 0, r => ([], r)
  | i, n + 1, r =>
      let col := i % cols
      let row := i / cols
      let centerX := margin + col * cellWidth + cellWidth / 2
      let centerY := margin + row * cellHeight + cellHeight / 2
      let o1 := p5random r (-(cellWidth * 0.3)) (cellWidth * 0.3)
      let o2 := p5random o1.2 (-(cellHeight * 0.3)) (cellHeight * 0.3)
      let rest := uniformPts margin cellWidth cellHeight cols (i + 1) n o2.2
      ((centerX + o1.1, centerY + o2.1) :: rest.1, rest.2)

/-- Cluster count of the `'clustered'` branch:
`Math.max(1, Math.floor(2 + clusterFactor * 8))`. -/
noncomputable def numClusters (clusterFactor : ℝ) : ℕ :=
  max 1 (⌊2 + clusterFactor * 8⌋).toNat

/-- Cluster centers of the `'clustered'` branch, drawn uniformly in the
50-unit-inset placement rectangle. -/
noncomputable def clusterCenters (margin : ℝ) : ℕ → Rng → List (ℝ × ℝ) × Rng
  | 0, r => ([], r)
  | n + 1, r =>
      let q1 := p5random r (margin + 50) (canvasW - margin - 50)
      let q2 := p5random q1.2 (margin + 50) (canvasH - margin - 50)
      let rest := clusterCenters margin n q2.2
      ((q1.1, q2.1) :: rest.1, rest.2)

/-- The `'clustered'` branch loop: polar offset (radius then angle) from the
cluster center chosen round-robin, constrained into the margin rectangle. -/
noncomputable def clusteredPts (margin maxRadius : ℝ) (centers : List (ℝ × ℝ))
    (nClusters : ℕ) : ℕ → ℕ → Rng → List (ℝ × ℝ) × Rng
  | _, 0, r => ([], r)
  | i, n + 1, r =>
      let cluster := centers.getD (i % nClusters) (0, 0)
      let q1 := p5random r 0 maxRadius
      let q2 := p5random q1.2 0 (2 * Real.pi)
      let x := cluster.1 + Real.cos q2.1 * q1.1
      let y := cluster.2 + Real.sin q2.1 * q1.1
      let rest := clusteredPts margin maxRadius centers nClusters (i + 1) n q2.2
      ((constrain x margin (canvasW - margin), constrain y margin (canvasH - margin)) :: rest.1,
        rest.2)

/-- `generatePoints` before the optional minimum-distance filter: the
`points` array after the distribution-type `switch`. -/
noncomputable def generatePointsRaw (r : Rng) (P : VoronoiParameters) : List (ℝ × ℝ) × Rng :=
  let margin := P.boundaryMargin
  let width := canvasW - 2 * margin
  let height := canvasH - 2 * margin
  match P.distributionType with
  | .uniform =>
      let cols := uniformCols P.numPoints width height
      let rows := uniformRows P.numPoints cols
      uniformPts margin (width / (cols : ℝ)) (height / (rows : ℝ)) cols 0 P.numPoints r
  | .clustered =>
      let nClusters := numClusters P.clusterFactor
      let cc := clusterCenters margin nClusters r
      let maxRadius := 20 + (1 - P.clusterFactor) * 100
      clusteredPts margin maxRadius cc.1 nClusters 0 P.numPoints cc.2
  | .random => randomPts margin P.numPoints r

/-- `generatePoints`: distribution-specific generation followed by the
optional greedy minimum-distance filter. -/
noncomputable def generatePoints (r : Rng) (P : VoronoiParameters) : List (ℝ × ℝ) × Rng :=
  let gen := generatePointsRaw r P
  if 0 < P.minDistance then (minDistanceFilter P.minDistance gen.1, gen.2) else gen

/-- The Delaunay triangulation handle, modelled by its construction input
(`Delaunay.from(sites)` is the d3-delaunay library, external to the repo). -/
structure DelaunayData where
  sites : List (ℝ × ℝ)

/-- The Voronoi diagram handle, modelled by its construction inputs
(`delaunay.voronoi([0, 0, width, height])`). -/
structure VoronoiDiagramData where
  sites : List (ℝ × ℝ)
  xmin : ℝ
  ymin : ℝ
  xmax : ℝ
  ymax : ℝ

/-- The generator's cached refs after one `generateVoronoiDiagram` pass. -/
structure VoronoiState where
  sites : List (ℝ × ℝ)
  delaunay : Option DelaunayData
  voronoi : Option VoronoiDiagramData

/-- `generateVoronoiDiagram`: re-seed the RNG from the current seed
(discarding whatever state earlier runs left behind), generate sites, and
build the tessellation handles only when at least 3 sites exist. -/
noncomputable def generateVoronoiDiagram (r : Rng) (P : VoronoiParameters) (seed : ℕ) :
    VoronoiState × Rng :=
  let r0 := seedRng seed
  let gen := generatePoints r0 P
  let newSites := gen.1
  if 3 ≤ newSites.length then
    ({ sites := newSites, delaunay := some ⟨newSites⟩,
       voronoi := some ⟨newSites, 0, 0, canvasW, canvasH⟩ }, gen.2)
  else
    ({ sites := newSites, delaunay := none, voronoi := none }, gen.2)

/-! ## Abstract box generation (`src/src/app/abstract-boxes/page.tsx`) -/

/-- The flat parameter object of the abstract-box generator. -/
structure AbstractBoxParameters where
  numBoxes : ℕ
  minBoxWidth : ℝ
  maxBoxWidth : ℝ
  minBoxHeight : ℝ
  maxBoxHeight : ℝ
  minBoxDepth : ℝ
  maxBoxDepth : ℝ
  placementVolumeWidth : ℝ
  placementVolumeHeight : ℝ
  placementVolumeDepth : ℝ
  maxRotationX : ℝ
  maxRotationY : ℝ
  maxRotationZ : ℝ
  strokeWeight : ℝ
  initialRotationX : ℝ
  initialRotationY : ℝ
  initialRotationZ : ℝ

/-- `p5.radians(deg)`. -/
noncomputable def p5radians (deg : ℝ) : ℝ := deg * Real.pi / 180

/-- p5 cosine under `angleMode(DEGREES)` (the abstract-box sketch sets degree
mode in `setup`, so `p5.cos` converts its argument from degrees). -/
noncomputable def p5cosDeg (a : ℝ) : ℝ := Real.cos (p5radians a)

/-- p5 sine under `angleMode(DEGREES)`. -/
noncomputable def p5sinDeg (a : ℝ) : ℝ := Real.sin (p5radians a)

/-- A box before its edge list is attached (the `Omit<Box3D, 'lines'>`
value). -/
structure BoxData where
  position : Vec3
  width : ℝ
  height : ℝ
  depth : ℝ
  rotation : Vec3

/-- The Z→Y→X Euler rotation applied to each local corner inside
`generateIndividualBoxLines`. -/
noncomputable def rotateZYX (cosX sinX cosY sinY cosZ sinZ : ℝ) (c : Vec3) : Vec3 :=
  let x1 := c.x * cosZ - c.y * sinZ
  let y1 := c.x * sinZ + c.y * cosZ
  let x2 := x1 * cosY + c.z * sinY
  let z2 := -x1 * sinY + c.z * cosY
  let y3 := y1 * cosX - z2 * sinX
  let z3 := y1 * sinX + z2 * cosX
  ⟨x2, y3, z3⟩

/-- `generateIndividualBoxLines`: rotate the 8 local corners (Z→Y→X order,
p5 trigonometry under degree mode applied to `p5.radians` of the rotation
angles, exactly as the code composes them), translate to the box position,
and emit the 12 edges. -/
noncomputable def generateIndividualBoxLines (box : BoxData) : List Seg3 :=
  let w := box.width / 2
  let h := box.height / 2
  let d := box.depth / 2
  let localCorners : List Vec3 :=
    [⟨-w, -h, -d⟩, ⟨w, -h, -d⟩, ⟨w, -h, d⟩, ⟨-w, -h, d⟩,
     ⟨-w, h, -d⟩, ⟨w, h, -d⟩, ⟨w, h, d⟩, ⟨-w, h, d⟩]
  let cosX := p5cosDeg (p5radians box.rotation.x)
  let sinX := p5sinDeg (p5radians box.rotation.x)
  let cosY := p5cosDeg (p5radians box.rotation.y)
  let sinY := p5sinDeg (p5radians box.rotation.y)
  let cosZ := p5cosDeg (p5radians box.rotation.z)
  let sinZ := p5sinDeg (p5radians box.rotation.z)
  let tc := localCorners.map fun lc =>
    let c := rotateZYX cosX sinX cosY sinY cosZ sinZ lc
    (⟨c.x + box.position.x, c.y + box.position.y, c.z + box.position.z⟩ : Vec3)
  let corner := fun i => tc.getD i ⟨0, 0, 0⟩
  [⟨corner 0, corner 1⟩, ⟨corner 1, corner 2⟩, ⟨corner 2, corner 3⟩, ⟨corner 3, corner 0⟩,
   ⟨corner 4, corner 5⟩, ⟨corner 5, corner 6⟩, ⟨corner 6, corner 7⟩, ⟨corner 7, corner 4⟩,
   ⟨corner 0, corner 4⟩, ⟨corner 1, corner 5⟩, ⟨corner 2, corner 6⟩, ⟨corner 3, corner 7⟩]

/-- The `for` loop of `generateBoxes`: each box draws, in order, three
dimensions, three position coordinates, and three rotation angles. -/
noncomputable def generateBoxesFrom (P : AbstractBoxParameters) :
    ℕ → Rng → List Box3D × Rng
  | 0, r => ([], r)
  | n + 1, r =>
      let q1 := p5random r P.minBoxWidth P.maxBoxWidth
      let q2 := p5random q1.2 P.minBoxHeight P.maxBoxHeight
      let q3 := p5random q2.2 P.minBoxDepth P.maxBoxDepth
      let q4 := p5random q3.2 (-(P.placementVolumeWidth / 2)) (P.placementVolumeWidth / 2)
      let q5 := p5random q4.2 (-(P.placementVolumeHeight / 2)) (P.placementVolumeHeight / 2)
      let q6 := p5random q5.2 (-(P.placementVolumeDepth / 2)) (P.placementVolumeDepth / 2)
      let q7 := p5random q6.2 (-P.maxRotationX) P.maxRotationX
      let q8 := p5random q7.2 (-P.maxRotationY) P.maxRotationY
      let q9 := p5random q8.2 (-P.maxRotationZ) P.maxRotationZ
      let boxData : BoxData := ⟨⟨q4.1, q5.1, q6.1⟩, q1.1, q2.1, q3.1, ⟨q7.1, q8.1, q9.1⟩⟩
      let lines := generateIndividualBoxLines boxData
      let rest := generateBoxesFrom P n q9.2
      (⟨boxData.position, boxData.width, boxData.height, boxData.depth, boxData.rotation,
          lines⟩ :: rest.1, rest.2)

/-- `generateBoxes`: re-seed the RNG from the current seed (discarding the
prior state), then run the generation loop. -/
noncomputable def generateBoxes (r : Rng) (P : AbstractBoxParameters) (seed : ℕ) :
    List Box3D × Rng :=
  generateBoxesFrom P P.numBoxes (seedRng seed)

/-! ## Draw and export guards -/

/-- `drawVoronoiCells`: early-returns (drawing nothing) when the voronoi ref
is null or the site list is empty; otherwise reads each site's cell polygon
from the library diagram, skipping absent cells.  The library's
`cellPolygon` lookup is abstracted as a function argument. -/
noncomputable def drawVoronoiCells
    (cellPolygon : VoronoiDiagramData → ℕ → Option (List (ℝ × ℝ)))
    (st : VoronoiState) : List (List (ℝ × ℝ)) :=
  match st.voronoi with
  | none => []
  | some vor =>
      if st.sites.length = 0 then []
      else (List.range st.sites.length).filterMap (cellPolygon vor)

/-- The Voronoi `exportSVG`: short-circuits with the logged diagnostic when
the voronoi ref is null or the site list is empty, otherwise serializes the
cell polygons. -/
noncomputable def voronoiExportSVG
    (cellPolygon : VoronoiDiagramData → ℕ → Option (List (ℝ × ℝ)))
    (st : VoronoiState) : Except String (List (List (ℝ × ℝ))) :=
  match st.voronoi with
  | none => Except.error "Voronoi data not available for SVG export"
  | some vor =>
      if st.sites.length = 0 then Except.error "Voronoi data not available for SVG export"
      else Except.ok ((List.range st.sites.length).filterMap (cellPolygon vor))

/-- The mountain `exportSVG` guard: short-circuits with the logged diagnostic
when the line-segment cache is empty. -/
noncomputable def mountainExportSVG (mvMatrix projMatrix : ℕ → ℝ) (cache : List Seg3) :
    Except String (List (Proj2D × Proj2D)) :=
  if cache.length = 0 then
    Except.error "P5 instance or line data not available for SVG export."
  else Except.ok (exportSegmentsMountain mvMatrix projMatrix cache)

/-- The wormhole `exportSVG` guard. -/
noncomputable def wormholeExportSVG (mvMatrix projMatrix : ℕ → ℝ) (cache : List Seg3) :
    Except String (List (Proj2D × Proj2D)) :=
  if cache.length = 0 then
    Except.error "P5 instance or line data not available for SVG export."
  else Except.ok (exportSegmentsWormhole mvMatrix projMatrix cache)

/-- The abstract-box `exportSVG` guard. -/
noncomputable def boxesExportSVG (mvMatrix projMatrix : ℕ → ℝ) (cache : List Box3D) :
    Except String (List (Proj2D × Proj2D)) :=
  if cache.length = 0 then
    Except.error "P5 instance or box data not available for SVG export."
  else Except.ok (exportSegmentsBoxes mvMatrix projMatrix cache)

/-- C3: two generation runs with identical parameters and seed produce
identical outputs, regardless of the RNG state left behind by earlier runs:
`generateVoronoiDiagram` re-seeds before `generatePoints`, so the site list
and tessellation handles agree coordinate-for-coordinate, and
`generateBoxes` re-seeds before its loop, so the box list (including every
box's cached line segments) agrees as well. -/
theorem generation_deterministic (r1 r2 : Rng) (P : VoronoiParameters)
    (B : AbstractBoxParameters) (seedV seedB : ℕ) :
    (generateVoronoiDiagram r1 P seedV).1 = (generateVoronoiDiagram r2 P seedV).1 ∧
    (generateBoxes r1 B seedB).1 = (generateBoxes r2 B seedB).1 :=
  ⟨rfl, rfl⟩

theorem generateVoronoiDiagram_sites (r : Rng) (P : VoronoiParameters) (seed : ℕ) :
    ((generateVoronoiDiagram r P seed).1).sites = (generatePoints (seedRng seed) P).1 := by
  simp only [generateVoronoiDiagram]
  split <;> rfl

/-- C7: with fewer than 3 generated sites, `generateVoronoiDiagram` computes
no tessellation (both library handles are set to null), the draw step
produces no geometry (and, being a total function, cannot fail), the Voronoi
`exportSVG` short-circuits with its logged diagnostic instead of emitting a
document, and every cache-backed generator's `exportSVG` short-circuits with
a logged diagnostic on an empty geometry cache. -/
theorem insufficient_input_short_circuits (r : Rng) (P : VoronoiParameters) (seed : ℕ)
    (cellPolygon : VoronoiDiagramData → ℕ → Option (List (ℝ × ℝ)))
    (h : ((generateVoronoiDiagram r P seed).1).sites.length < 3) :
    ((generateVoronoiDiagram r P seed).1).delaunay = none ∧
    ((generateVoronoiDiagram r P seed).1).voronoi = none ∧
    drawVoronoiCells cellPolygon ((generateVoronoiDiagram r P seed).1) = [] ∧
    voronoiExportSVG cellPolygon ((generateVoronoiDiagram r P seed).1) =
      Except.error "Voronoi data not available for SVG export" ∧
    ∀ mvMatrix projMatrix : ℕ → ℝ,
      mountainExportSVG mvMatrix projMatrix [] =
        Except.error "P5 instance or line data not available for SVG export." ∧
      wormholeExportSVG mvMatrix projMatrix [] =
        Except.error "P5 instance or line data not available for SVG export." ∧
      boxesExportSVG mvMatrix projMatrix [] =
        Except.error "P5 instance or box data not available for SVG export." := by
  have hns : ¬ 3 ≤ ((generatePoints (seedRng seed) P).1).length := by
    rw [← generateVoronoiDiagram_sites r P seed]
    exact not_le.mpr h
  have hstate : (generateVoronoiDiagram r P seed).1 =
      ⟨(generatePoints (seedRng seed) P).1, none, none⟩ := by
    simp only [generateVoronoiDiagram]
    rw [if_neg hns]
  rw [hstate]
  refine ⟨rfl, rfl, rfl, rfl, ?_⟩
  intro mvMatrix projMatrix
  exact ⟨rfl, rfl, rfl⟩

theorem insufficient_input_short_circuits_witness :
    ((generateVoronoiDiagram ⟨0⟩ ⟨0, 0, 0, DistributionType.random, 0⟩ 0).1).sites.length < 3 ∧
    ((generateVoronoiDiagram ⟨0⟩ ⟨0, 0, 0, DistributionType.random, 0⟩ 0).1).voronoi = none := by
  have hlen : ((generateVoronoiDiagram ⟨0⟩ ⟨0, 0, 0, DistributionType.random, 0⟩ 0).1).sites.length < 3 := by
    rw [generateVoronoiDiagram_sites]
    simp [generatePoints, generatePointsRaw, randomPts]
  exact ⟨hlen,
    (insufficient_input_short_circuits ⟨0⟩ ⟨0, 0, 0, DistributionType.random, 0⟩ 0
      (fun _ _ => none) hlen).2.1⟩

/-! ## The minimum-distance filter (C8) -/

theorem pointDist_comm (p q : ℝ × ℝ) : pointDist p q = pointDist q p := by
  unfold pointDist
  congr 1
  ring

theorem minDistanceFilterGo_append (md : ℝ) :
    ∀ ps acc : List (ℝ × ℝ),
      ∃ s, minDistanceFilterGo md acc ps = acc ++ s ∧ s.Sublist ps := by
  intro ps
  induction ps with
  | nil =>
      intro acc
      exact ⟨[], by simp [minDistanceFilterGo], List.Sublist.refl _⟩
  | cons p rest ih =>
      intro acc
      by_cases hc : TooClose md acc p
      · obtain ⟨s, hs, hsub⟩ := ih acc
        refine ⟨s, ?_, hsub.cons p⟩
        rw [minDistanceFilterGo, if_pos hc]
        exact hs
      · obtain ⟨s, hs, hsub⟩ := ih (acc ++ [p])
        refine ⟨p :: s, ?_, hsub.cons₂ p⟩
        rw [minDistanceFilterGo, if_neg hc, hs, List.append_assoc]
        rfl

theorem minDistanceFilterGo_pairwise (md : ℝ) :
    ∀ ps acc : List (ℝ × ℝ),
      List.Pairwise (fun a b => md ≤ pointDist b a) acc →
      List.Pairwise (fun a b => md ≤ pointDist b a) (minDistanceFilterGo md acc ps) := by
  intro ps
  induction ps with
  | nil =>
      intro acc h
      simpa [minDistanceFilterGo] using h
  | cons p rest ih =>
      intro acc h
      by_cases hc : TooClose md acc p
      · rw [minDistanceFilterGo, if_pos hc]
        exact ih acc h
      · rw [minDistanceFilterGo, if_neg hc]
        refine ih (acc ++ [p]) ?_
        rw [List.pairwise_append]
        refine ⟨h, List.pairwise_singleton _ _, ?_⟩
        intro a ha b hb
        rw [List.mem_singleton] at hb
        subst hb
        by_contra hlt
        exact hc ⟨a, ha, lt_of_not_le hlt⟩

theorem minDistanceFilter_head (md : ℝ) (p : ℝ × ℝ) (rest : List (ℝ × ℝ)) :
    ∃ s, minDistanceFilter md (p :: rest) = p :: s := by
  have hnc : ¬ TooClose md [] p := by
    rintro ⟨q, hq, -⟩
    exact absurd hq (List.not_mem_nil q)
  obtain ⟨s, hs, -⟩ := minDistanceFilterGo_append md rest [p]
  refine ⟨s, ?_⟩
  rw [minDistanceFilter, minDistanceFilterGo, if_neg hnc, List.nil_append, hs]
  rfl

/-- C8 (counterexample): with `minDistance = 1` and candidate points `(0,0)`
then `(0,1)` at distance exactly `1`, the filter keeps both points (the code
rejects a candidate only when a kept point is *strictly* closer than the
threshold), so the kept points are not pairwise separated by *more than* the
threshold as the claim states. -/
theorem minDistance_filter_exceeds_claim_false :
    ¬ List.Pairwise (fun a b => 1 < pointDist a b)
        (minDistanceFilter 1 [((0 : ℝ), (0 : ℝ)), ((0 : ℝ), (1 : ℝ))]) := by
  have hdist : pointDist ((0 : ℝ), (0 : ℝ)) ((0 : ℝ), (1 : ℝ)) = 1 := by
    unfold pointDist
    norm_num
  have hdist' : pointDist ((0 : ℝ), (1 : ℝ)) ((0 : ℝ), (0 : ℝ)) = 1 := by
    rw [pointDist_comm]
    exact hdist
  have h1 : ¬ TooClose 1 [] ((0 : ℝ), (0 : ℝ)) := by
    rintro ⟨q, hq, -⟩
    exact absurd hq (List.not_mem_nil q)
  have h2 : ¬ TooClose 1 [((0 : ℝ), (0 : ℝ))] ((0 : ℝ), (1 : ℝ)) := by
    rintro ⟨q, hq, hlt⟩
    rw [List.mem_singleton] at hq
    subst hq
    rw [hdist'] at hlt
    exact lt_irrefl _ hlt
  have hfil : minDistanceFilter 1 [((0 : ℝ), (0 : ℝ)), ((0 : ℝ), (1 : ℝ))] =
      [((0 : ℝ), (0 : ℝ)), ((0 : ℝ), (1 : ℝ))] := by
    rw [minDistanceFilter, minDistanceFilterGo, if_neg h1, List.nil_append,
      minDistanceFilterGo, if_neg h2]
    rfl
  rw [hfil]
  intro hp
  have := (List.pairwise_cons.mp hp).1 ((0 : ℝ), (1 : ℝ)) (List.mem_singleton.mpr rfl)
  rw [hdist] at this
  exact lt_irrefl _ this

/-- C8 (amended): when `minDistance > 0`, the filter scans candidates in
generation order and keeps a point exactly when its distance to every
already-kept point is at least the threshold (the code rejects only on
strict `<`); consequently the returned list is an order-preserving
subsequence of the candidates, the first candidate is always kept, and every
pair of kept points is separated by at least `minDistance` (with equality
possible, so "exceeds" must be read as "is not strictly closer"). -/
theorem minDistance_filter_correct (md : ℝ) (points : List (ℝ × ℝ)) (hmd : 0 < md) :
    (minDistanceFilter md points).Sublist points ∧
    (∀ p rest, points = p :: rest → ∃ s, minDistanceFilter md points = p :: s) ∧
    List.Pairwise (fun a b => md ≤ pointDist a b) (minDistanceFilter md points) := by
  refine ⟨?_, ?_, ?_⟩
  · obtain ⟨s, hs, hsub⟩ := minDistanceFilterGo_append md points []
    rw [minDistanceFilter, hs, List.nil_append]
    exact hsub
  · intro p rest hpr
    subst hpr
    exact minDistanceFilter_head md p rest
  · have := minDistanceFilterGo_pairwise md points [] List.Pairwise.nil
    rw [minDistanceFilter]
    exact this.imp fun {a b} hab => pointDist_comm a b ▸ hab

theorem minDistance_filter_correct_witness :
    (0 : ℝ) < 1 ∧
      (minDistanceFilter 1 [((0 : ℝ), (0 : ℝ))]).Sublist [((0 : ℝ), (0 : ℝ))] :=
  ⟨by norm_num, (minDistance_filter_correct 1 [((0 : ℝ), (0 : ℝ))] (by norm_num)).1⟩

/-! ## Site bounds (C10) -/

/-- The margin-inset rectangle
`[margin, canvasW - margin] × [margin, canvasH - margin]`. -/
def inMarginRect (margin : ℝ) (pt : ℝ × ℝ) : Prop :=
  margin ≤ pt.1 ∧ pt.1 ≤ canvasW - margin ∧ margin ≤ pt.2 ∧ pt.2 ≤ canvasH - margin

theorem constrain_mem (n lo hi : ℝ) (h : lo ≤ hi) :
    lo ≤ constrain n lo hi ∧ constrain n lo hi ≤ hi := by
  unfold constrain
  exact ⟨le_max_right _ _, max_le (min_le_right n hi) h⟩

theorem randomPts_in_bounds (margin : ℝ) (hw : margin ≤ canvasW - margin)
    (hh : margin ≤ canvasH - margin) :
    ∀ (n : ℕ) (r : Rng), ∀ pt ∈ (randomPts margin n r).1, inMarginRect margin pt := by
  intro n
  induction n with
  | zero =>
      intro r pt hpt
      simp [randomPts] at hpt
  | succ n ih =>
      intro r pt hpt
      simp only [randomPts, List.mem_cons] at hpt
      rcases hpt with rfl | hpt
      · obtain ⟨hx1, hx2⟩ := p5random_mem r margin (canvasW - margin) hw
        obtain ⟨hy1, hy2⟩ :=
          p5random_mem (p5random r margin (canvasW - margin)).2 margin (canvasH - margin) hh
        exact ⟨hx1, hx2, hy1, hy2⟩
      · exact ih _ pt hpt

theorem clusteredPts_in_bounds (margin maxRadius : ℝ) (centers : List (ℝ × ℝ))
    (nClusters : ℕ) (hw : margin ≤ canvasW - margin) (hh : margin ≤ canvasH - margin) :
    ∀ (n i : ℕ) (r : Rng),
      ∀ pt ∈ (clusteredPts margin maxRadius centers nClusters i n r).1,
        inMarginRect margin pt := by
  intro n
  induction n with
  | zero =>
      intro i r pt hpt
      simp [clusteredPts] at hpt
  | succ n ih =>
      intro i r pt hpt
      simp only [clusteredPts, List.mem_cons] at hpt
      rcases hpt with rfl | hpt
      · obtain ⟨hx1, hx2⟩ := constrain_mem _ margin (canvasW - margin) hw
        obtain ⟨hy1, hy2⟩ := constrain_mem _ margin (canvasH - margin) hh
        exact ⟨hx1, hx2, hy1, hy2⟩
      · exact ih _ _ pt hpt

theorem uniformPts_in_bounds (margin cellWidth cellHeight : ℝ) (cols rows : ℕ)
    (hcols : 0 < cols) (hcw : 0 ≤ cellWidth) (hch : 0 ≤ cellHeight)
    (hW : (cols : ℝ) * cellWidth ≤ canvasW - 2 * margin)
    (hH : (rows : ℝ) * cellHeight ≤ canvasH - 2 * margin) :
    ∀ (n i : ℕ) (r : Rng), i + n ≤ cols * rows →
      ∀ pt ∈ (uniformPts margin cellWidth cellHeight cols i n r).1,
        inMarginRect margin pt := by
  intro n
  induction n with
  | zero =>
      intro i r _ pt hpt
      simp [uniformPts] at hpt
  | succ n ih =>
      intro i r hin pt hpt
      simp only [uniformPts, List.mem_cons] at hpt
      rcases hpt with rfl | hpt
      · have hi : i < cols * rows := by omega
        have hrowsPos : 0 < rows := by
          rcases Nat.eq_zero_or_pos rows with h | h
          · rw [h, Nat.mul_zero] at hi
            omega
          · exact h
        have hcol : ((i % cols : ℕ) : ℝ) ≤ (cols : ℝ) - 1 := by
          have h1 : i % cols ≤ cols - 1 := Nat.le_sub_one_of_lt (Nat.mod_lt i hcols)
          have h2 : ((i % cols : ℕ) : ℝ) ≤ ((cols - 1 : ℕ) : ℝ) := Nat.cast_le.mpr h1
          rwa [Nat.cast_sub (by omega), Nat.cast_one] at h2
        have hrow : ((i / cols : ℕ) : ℝ) ≤ (rows : ℝ) - 1 := by
          have h1 : i / cols < rows := by
            rw [Nat.div_lt_iff_lt_mul hcols, Nat.mul_comm rows cols]
            exact hi
          have h2 : ((i / cols : ℕ) : ℝ) ≤ ((rows - 1 : ℕ) : ℝ) :=
            Nat.cast_le.mpr (Nat.le_sub_one_of_lt h1)
          rwa [Nat.cast_sub (by omega), Nat.cast_one] at h2
        obtain ⟨hox1, hox2⟩ :=
          p5random_mem r (-(cellWidth * 0.3)) (cellWidth * 0.3) (by linarith)
        obtain ⟨hoy1, hoy2⟩ :=
          p5random_mem (p5random r (-(cellWidth * 0.3)) (cellWidth * 0.3)).2
            (-(cellHeight * 0.3)) (cellHeight * 0.3) (by linarith)
        have hcolnn : 0 ≤ ((i % cols : ℕ) : ℝ) * cellWidth :=
          mul_nonneg (Nat.cast_nonneg _) hcw
        have hrownn : 0 ≤ ((i / cols : ℕ) : ℝ) * cellHeight :=
          mul_nonneg (Nat.cast_nonneg _) hch
        have hcolmul : ((i % cols : ℕ) : ℝ) * cellWidth ≤ (cols : ℝ) * cellWidth - cellWidth := by
          have := mul_le_mul_of_nonneg_right hcol hcw
          rwa [sub_mul, one_mul] at this
        have hrowmul :
            ((i / cols : ℕ) : ℝ) * cellHeight ≤ (rows : ℝ) * cellHeight - cellHeight := by
          have := mul_le_mul_of_nonneg_right hrow hch
          rwa [sub_mul, one_mul] at this
        refine ⟨by linarith, by linarith, by linarith, by linarith⟩
      · exact ih (i + 1) _ (by omega) pt hpt

theorem uniformCols_pos (numPoints : ℕ) (width height : ℝ) (hn : 0 < numPoints)
    (hw : 0 < width) (hh : 0 < height) : 0 < uniformCols numPoints width height := by
  unfold uniformCols
  have harg : 0 < (numPoints : ℝ) * (width / height) :=
    mul_pos (by exact_mod_cast hn) (div_pos hw hh)
  have hceil : 0 < ⌈Real.sqrt ((numPoints : ℝ) * (width / height))⌉ :=
    Int.ceil_pos.mpr (Real.sqrt_pos.mpr harg)
  omega

theorem le_cols_mul_uniformRows (numPoints cols : ℕ) (hc : 0 < cols) :
    numPoints ≤ cols * uniformRows numPoints cols := by
  have hcR : (0 : ℝ) < (cols : ℝ) := by exact_mod_cast hc
  have hnn : 0 ≤ ⌈(numPoints : ℝ) / (cols : ℝ)⌉ :=
    Int.ceil_nonneg (div_nonneg (Nat.cast_nonneg _) (le_of_lt hcR))
  have h2 : ((uniformRows numPoints cols : ℕ) : ℝ) =
      ((⌈(numPoints : ℝ) / (cols : ℝ)⌉ : ℤ) : ℝ) := by
    unfold uniformRows
    exact_mod_cast Int.toNat_of_nonneg hnn
  have h3 : (numPoints : ℝ) ≤ (cols : ℝ) * (uniformRows numPoints cols : ℝ) := by
    rw [h2]
    have h1 : (numPoints : ℝ) / (cols : ℝ) ≤ ((⌈(numPoints : ℝ) / (cols : ℝ)⌉ : ℤ) : ℝ) :=
      Int.le_ceil _
    rw [div_le_iff₀ hcR] at h1
    linarith [h1]
  exact_mod_cast h3

theorem generatePointsRaw_in_bounds (r : Rng) (P : VoronoiParameters)
    (h0 : 0 ≤ P.boundaryMargin) (hw : 2 * P.boundaryMargin < canvasW)
    (hh : 2 * P.boundaryMargin < canvasH) :
    ∀ pt ∈ (generatePointsRaw r P).1, inMarginRect P.boundaryMargin pt := by
  intro pt hpt
  cases hd : P.distributionType with
  | random =>
      simp only [generatePointsRaw, hd] at hpt
      exact randomPts_in_bounds P.boundaryMargin (by linarith) (by linarith) _ _ pt hpt
  | clustered =>
      simp only [generatePointsRaw, hd] at hpt
      exact clusteredPts_in_bounds _ _ _ _ (by linarith) (by linarith) _ _ _ pt hpt
  | uniform =>
      simp only [generatePointsRaw, hd] at hpt
      rcases Nat.eq_zero_or_pos P.numPoints with hnp | hnp
      · rw [hnp] at hpt
        simp [uniformPts] at hpt
      · have hWpos : (0 : ℝ) < canvasW - 2 * P.boundaryMargin := by linarith
        have hHpos : (0 : ℝ) < canvasH - 2 * P.boundaryMargin := by linarith
        have hcols : 0 < uniformCols P.numPoints (canvasW - 2 * P.boundaryMargin)
            (canvasH - 2 * P.boundaryMargin) :=
          uniformCols_pos _ _ _ hnp hWpos hHpos
        set cols := uniformCols P.numPoints (canvasW - 2 * P.boundaryMargin)
          (canvasH - 2 * P.boundaryMargin) with hcolsdef
        set rows := uniformRows P.numPoints cols with hrowsdef
        have hcne : (cols : ℝ) ≠ 0 := by
          exact_mod_cast Nat.pos_iff_ne_zero.mp hcols
        have hW : (cols : ℝ) * ((canvasW - 2 * P.boundaryMargin) / (cols : ℝ)) ≤
            canvasW - 2 * P.boundaryMargin := by
          rw [mul_comm, div_mul_cancel₀ _ hcne]
        have hH : (rows : ℝ) * ((canvasH - 2 * P.boundaryMargin) / (rows : ℝ)) ≤
            canvasH - 2 * P.boundaryMargin := by
          rcases Nat.eq_zero_or_pos rows with hr | hr
          · rw [hr]
            push_cast
            rw [zero_mul]
            linarith
          · have : (rows : ℝ) ≠ 0 := by exact_mod_cast Nat.pos_iff_ne_zero.mp hr
            rw [mul_comm, div_mul_cancel₀ _ this]
        exact uniformPts_in_bounds P.boundaryMargin _ _ cols rows hcols
          (div_nonneg (by linarith) (Nat.cast_nonneg _))
          (div_nonneg (by linarith) (Nat.cast_nonneg _)) hW hH
          P.numPoints 0 r (by simpa using le_cols_mul_uniformRows P.numPoints cols hcols)
          pt hpt

/-- C10: for every distribution policy and every parameter set with
`0 ≤ boundaryMargin` and `2 * boundaryMargin` below both canvas dimensions,
every site returned by `generatePoints` — both the raw list before the
optional minimum-distance filter and the filtered list — lies within the
margin-inset rectangle
`[boundaryMargin, canvasW - boundaryMargin] × [boundaryMargin, canvasH - boundaryMargin]`:
random samples are drawn inside it, jittered-grid offsets of at most 30% of
a cell cannot leave it, and clustered points are explicitly constrained into
it. -/
theorem generatePoints_in_bounds (r : Rng) (P : VoronoiParameters)
    (h0 : 0 ≤ P.boundaryMargin) (hw : 2 * P.boundaryMargin < canvasW)
    (hh : 2 * P.boundaryMargin < canvasH) :
    (∀ pt ∈ (generatePointsRaw r P).1, inMarginRect P.boundaryMargin pt) ∧
    (∀ pt ∈ (generatePoints r P).1, inMarginRect P.boundaryMargin pt) := by
  refine ⟨generatePointsRaw_in_bounds r P h0 hw hh, ?_⟩
  intro pt hpt
  apply generatePointsRaw_in_bounds r P h0 hw hh
  by_cases hmd : 0 < P.minDistance
  · simp only [generatePoints, if_pos hmd] at hpt
    obtain ⟨s, hs, hsub⟩ := minDistanceFilterGo_append P.minDistance (generatePointsRaw r P).1 []
    rw [minDistanceFilter, hs, List.nil_append] at hpt
    exact hsub.subset hpt
  · simpa only [generatePoints, if_neg hmd] using hpt

theorem generatePoints_in_bounds_witness :
    (0 : ℝ) ≤ 0 ∧ 2 * (0 : ℝ) < canvasW ∧ 2 * (0 : ℝ) < canvasH ∧
    (∀ pt ∈ (generatePoints ⟨0⟩ ⟨1, 0, 0, DistributionType.random, 0⟩).1, inMarginRect 0 pt) :=
  ⟨le_refl 0, by norm_num [canvasW], by norm_num [canvasH],
    (generatePoints_in_bounds ⟨0⟩ ⟨1, 0, 0, DistributionType.random, 0⟩ (le_refl 0)
      (by norm_num [canvasW]) (by norm_num [canvasH])).2⟩

/-! ## Maze generator (`src/src/app/maze-generator/page.tsx`)

Cells carry four boundary-wall flags, a carve-visited flag, a solve-visited
flag and a parent back-reference; the grid (`grid[y][x]` in the code) is a
total map from `(x, y)` coordinates with pointwise update, and
`Math.random()` is an explicit stream `choice : ℕ → ℕ` of draws (the `k`-th
draw selects index `choice k % neighbors.length`, covering every possible
run of the randomized algorithm). -/

/-- The four wall flags of a cell. -/
structure Walls where
  top : Bool
  right : Bool
  bottom : Bool
  left : Bool
deriving DecidableEq

/-- A maze cell. -/
structure Cell where
  walls : Walls
  visited : Bool
  visitedForSolution : Bool
  parent : Option (ℕ × ℕ)
deriving DecidableEq

/-- The maze grid as a total map from `(x, y)`. -/
def Grid := (ℕ × ℕ) → Cell

/-- A freshly initialized cell: all four walls present, unvisited. -/
def initialCell : Cell := ⟨⟨true, true, true, true⟩, false, false, none⟩

/-- `initializeGrid`. -/
def initializeGrid : Grid := fun _ => initialCell

/-- Pointwise update of one cell. -/
def setCell (g : Grid) (p : ℕ × ℕ) (c : Cell) : Grid :=
  fun q => if q = p then c else g q

/-- The cell sides. -/
inductive Side
  | top
  | right
  | bottom
  | left

/-- Clear one wall flag. -/
def clearSide (w : Walls) : Side → Walls
  | .top => { w with top := false }
  | .right => { w with right := false }
  | .bottom => { w with bottom := false }
  | .left => { w with left := false }

/-- Clear one wall flag of one cell in the grid. -/
def clearWall (g : Grid) (p : ℕ × ℕ) (s : Side) : Grid :=
  setCell g p { g p with walls := clearSide (g p).walls s }

/-- Mark a cell carve-visited. -/
def setVisited (g : Grid) (p : ℕ × ℕ) : Grid :=
  setCell g p { g p with visited := true }

/-- In-bounds coordinates of an `size × size` grid. -/
def InBounds (size : ℕ) (p : ℕ × ℕ) : Prop := p.1 < size ∧ p.2 < size

instance (size : ℕ) (p : ℕ × ℕ) : Decidable (InBounds size p) := by
  unfold InBounds
  infer_instance

/-- The four bounds-checked neighbor candidates, in the code's order:
top, right, bottom, left (`y > 0`, `x < size - 1`, `y < size - 1`,
`x > 0`). -/
def neighborCandidates (size : ℕ) (p : ℕ × ℕ) : List (ℕ × ℕ) :=
  (if 0 < p.2 then [(p.1, p.2 - 1)] else []) ++
  (if p.1 < size - 1 then [(p.1 + 1, p.2)] else []) ++
  (if p.2 < size - 1 then [(p.1, p.2 + 1)] else []) ++
  (if 0 < p.1 then [(p.1 - 1, p.2)] else [])

/-- `getUnvisitedNeighbors`. -/
def getUnvisitedNeighbors (cell : ℕ × ℕ) (currentGrid : Grid) (size : ℕ) :
    List (ℕ × ℕ) :=
  (neighborCandidates size cell).filter fun q => !(currentGrid q).visited

/-- `removeWall`: symmetric wall removal between `current` and `next`,
dispatching on the coordinate differences exactly as the code does (both the
`dx` chain and the `dy` chain run). -/
def removeWall (g : Grid) (current next : ℕ × ℕ) : Grid :=
  let dx : ℤ := (current.1 : ℤ) - (next.1 : ℤ)
  let g1 :=
    if dx = 1 then clearWall (clearWall g current .left) next .right
    else if dx = -1 then clearWall (clearWall g current .right) next .left
    else g
  let dy : ℤ := (current.2 : ℤ) - (next.2 : ℤ)
  if dy = 1 then clearWall (clearWall g1 current .top) next .bottom
  else if dy = -1 then clearWall (clearWall g1 current .bottom) next .top
  else g1

/-- The state of the carving loop. -/
structure CarveState where
  grid : Grid
  stack : List (ℕ × ℕ)
  currentCell : ℕ × ℕ
  draws : ℕ

/-- One iteration of the carving `do`-loop body: if unvisited neighbors
exist, pick one by the next random draw, push the current cell, remove the
shared wall, move and mark visited; otherwise backtrack by popping. -/
def carveStep (size : ℕ) (choice : ℕ → ℕ) (st : CarveState) : CarveState :=
  let ns := getUnvisitedNeighbors st.currentCell st.grid size
  if h : ns ≠ [] then
    let randomIndex := choice st.draws % ns.length
    let nextCell := ns.get ⟨randomIndex, Nat.mod_lt _ (List.length_pos.mpr h)⟩
    { grid := setVisited (removeWall st.grid st.currentCell nextCell) nextCell
      stack := st.currentCell :: st.stack
      currentCell := nextCell
      draws := st.draws + 1 }
  else
    match st.stack with
    | c :: rest => { st with currentCell := c, stack := rest }
    | [] => st

/-- The `do … while (stack.length > 0 || unvisitedNeighbors > 0)` loop:
run the body, then repeat while the condition holds (fuel-indexed). -/
def carveLoop (size : ℕ) (choice : ℕ → ℕ) : ℕ → CarveState → CarveState
  | 0, st => st
  | fuel + 1, st =>
      let st' := carveStep size choice st
      if st'.stack = [] ∧ getUnvisitedNeighbors st'.currentCell st'.grid size = [] then st'
      else carveLoop size choice fuel st'

/-- `recursiveBacktracker`: initialize the grid (the redundant reset loop
leaves the fresh grid unchanged), mark `(0,0)` visited, and run the carving
loop; `2·size² + 1` fuel strictly exceeds the loop's step count. -/
def recursiveBacktracker (size : ℕ) (choice : ℕ → ℕ) : Grid :=
  let g1 := setVisited initializeGrid (0, 0)
  (carveLoop size choice (2 * size * size + 1) ⟨g1, [], (0, 0), 0⟩).grid

/-- The in-bounds index set. -/
def boundsFinset (size : ℕ) : Finset (ℕ × ℕ) :=
  Finset.range size ×ˢ Finset.range size

/-- Number of removed wall-pairs, counted once per unordered pair at its
canonical cell: a removed right wall of `(x, y)` (with `(x+1, y)` in
bounds) or a removed bottom wall of `(x, y)` (with `(x, y+1)` in bounds). -/
def openEdgeCount (g : Grid) (size : ℕ) : ℕ :=
  ((boundsFinset size).filter fun p => p.1 + 1 < size ∧ (g p).walls.right = false).card +
  ((boundsFinset size).filter fun p => p.2 + 1 < size ∧ (g p).walls.bottom = false).card

/-- Number of carve-visited in-bounds cells. -/
def visitedCount (g : Grid) (size : ℕ) : ℕ :=
  ((boundsFinset size).filter fun p => (g p).visited = true).card

/-- Number of unvisited in-bounds cells. -/
def unvisitedCount (g : Grid) (size : ℕ) : ℕ :=
  ((boundsFinset size).filter fun p => (g p).visited = false).card

/-- Wall-pair symmetry: the shared wall between two horizontally or
vertically adjacent in-bounds cells is recorded consistently on both. -/
def WallSym (g : Grid) (size : ℕ) : Prop :=
  (∀ x y, x + 1 < size → y < size →
    (g (x, y)).walls.right = (g (x + 1, y)).walls.left) ∧
  (∀ x y, x < size → y + 1 < size →
    (g (x, y)).walls.bottom = (g (x, y + 1)).walls.top)

/-- One open-wall step: `q` is a grid neighbor of the in-bounds cell `p` and
the wall of `p` toward `q` has been removed (this is how both the solver and
the renderer read openness: through the cell's own flags). -/
def openAdj (g : Grid) (size : ℕ) (p q : ℕ × ℕ) : Prop :=
  InBounds size p ∧
  ((0 < p.2 ∧ q = (p.1, p.2 - 1) ∧ (g p).walls.top = false) ∨
   (p.1 + 1 < size ∧ q = (p.1 + 1, p.2) ∧ (g p).walls.right = false) ∨
   (p.2 + 1 < size ∧ q = (p.1, p.2 + 1) ∧ (g p).walls.bottom = false) ∨
   (0 < p.1 ∧ q = (p.1 - 1, p.2) ∧ (g p).walls.left = false))

/-- Reachability through open walls. -/
def ReachOpen (g : Grid) (size : ℕ) : (ℕ × ℕ) → (ℕ × ℕ) → Prop :=
  Relation.ReflTransGen (openAdj g size)

/-! ### Basic grid lemmas -/

theorem setCell_same (g : Grid) (p : ℕ × ℕ) (c : Cell) : setCell g p c p = c := by
  simp [setCell]

theorem setCell_other (g : Grid) (p : ℕ × ℕ) (c : Cell) (q : ℕ × ℕ) (h : q ≠ p) :
    setCell g p c q = g q := by
  simp [setCell, h]

theorem clearWall_other (g : Grid) (p : ℕ × ℕ) (s : Side) (q : ℕ × ℕ) (h : q ≠ p) :
    clearWall g p s q = g q := by
  simp [clearWall, setCell, h]

theorem clearWall_visited (g : Grid) (p : ℕ × ℕ) (s : Side) (q : ℕ × ℕ) :
    (clearWall g p s q).visited = (g q).visited := by
  unfold clearWall setCell
  split_ifs with h
  · subst h
    rfl
  · rfl

theorem setVisited_walls (g : Grid) (p q : ℕ × ℕ) :
    (setVisited g p q).walls = (g q).walls := by
  unfold setVisited setCell
  split_ifs with h
  · subst h
    rfl
  · rfl

theorem setVisited_visited (g : Grid) (p q : ℕ × ℕ) :
    (setVisited g p q).visited = if q = p then true else (g q).visited := by
  unfold setVisited setCell
  split_ifs with h
  · rfl
  · rfl

theorem removeWall_visited (g : Grid) (current next q : ℕ × ℕ) :
    (removeWall g current next q).visited = (g q).visited := by
  unfold removeWall
  split_ifs <;> simp only [clearWall_visited]

theorem mem_singleton_ite {c : Prop} [Decidable c] (x q : ℕ × ℕ) :
    (q ∈ if c then [x] else []) ↔ c ∧ q = x := by
  split_ifs with hc
  · simp [hc]
  · simp [hc]

theorem mem_neighborCandidates {size : ℕ} {p q : ℕ × ℕ} :
    q ∈ neighborCandidates size p ↔
      (0 < p.2 ∧ q = (p.1, p.2 - 1)) ∨ (p.1 < size - 1 ∧ q = (p.1 + 1, p.2)) ∨
      (p.2 < size - 1 ∧ q = (p.1, p.2 + 1)) ∨ (0 < p.1 ∧ q = (p.1 - 1, p.2)) := by
  unfold neighborCandidates
  simp only [List.mem_append, mem_singleton_ite]
  tauto

theorem mem_getUnvisitedNeighbors {cell : ℕ × ℕ} {g : Grid} {size : ℕ} {q : ℕ × ℕ} :
    q ∈ getUnvisitedNeighbors cell g size ↔
      q ∈ neighborCandidates size cell ∧ (g q).visited = false := by
  unfold getUnvisitedNeighbors
  rw [List.mem_filter, Bool.not_eq_true']

/-- Openness is monotone from `g` to `g'`: every removed wall of `g` is
removed in `g'`. -/
def OpensMono (g g' : Grid) : Prop :=
  ∀ p : ℕ × ℕ,
    ((g p).walls.top = false → (g' p).walls.top = false) ∧
    ((g p).walls.right = false → (g' p).walls.right = false) ∧
    ((g p).walls.bottom = false → (g' p).walls.bottom = false) ∧
    ((g p).walls.left = false → (g' p).walls.left = false)

theorem opensMono_refl (g : Grid) : OpensMono g g := fun _ =>
  ⟨id, id, id, id⟩

theorem opensMono_trans {g1 g2 g3 : Grid} (h12 : OpensMono g1 g2) (h23 : OpensMono g2 g3) :
    OpensMono g1 g3 := fun p =>
  ⟨fun h => (h23 p).1 ((h12 p).1 h), fun h => (h23 p).2.1 ((h12 p).2.1 h),
   fun h => (h23 p).2.2.1 ((h12 p).2.2.1 h), fun h => (h23 p).2.2.2 ((h12 p).2.2.2 h)⟩

theorem opensMono_clearWall (g : Grid) (p : ℕ × ℕ) (s : Side) :
    OpensMono g (clearWall g p s) := by
  intro q
  by_cases hq : q = p
  · subst hq
    unfold clearWall
    rw [setCell_same]
    cases s <;> simp [clearSide]
  · rw [clearWall_other g p s q hq]
    exact ⟨id, id, id, id⟩

theorem opensMono_setVisited (g : Grid) (p : ℕ × ℕ) :
    OpensMono g (setVisited g p) := by
  intro q
  rw [setVisited_walls]
  exact ⟨id, id, id, id⟩

theorem opensMono_removeWall (g : Grid) (current next : ℕ × ℕ) :
    OpensMono g (removeWall g current next) := by
  simp only [removeWall]
  split_ifs <;>
    first
      | exact opensMono_refl g
      | exact opensMono_trans (opensMono_clearWall _ _ _) (opensMono_clearWall _ _ _)
      | exact opensMono_trans
          (opensMono_trans (opensMono_clearWall _ _ _) (opensMono_clearWall _ _ _))
          (opensMono_trans (opensMono_clearWall _ _ _) (opensMono_clearWall _ _ _))

theorem openAdj_mono {g g' : Grid} {size : ℕ} (h : OpensMono g g') {p q : ℕ × ℕ}
    (hadj : openAdj g size p q) : openAdj g' size p q := by
  obtain ⟨hin, hcase⟩ := hadj
  refine ⟨hin, ?_⟩
  rcases hcase with ⟨h1, h2, h3⟩ | ⟨h1, h2, h3⟩ | ⟨h1, h2, h3⟩ | ⟨h1, h2, h3⟩
  · exact Or.inl ⟨h1, h2, (h p).1 h3⟩
  · exact Or.inr (Or.inl ⟨h1, h2, (h p).2.1 h3⟩)
  · exact Or.inr (Or.inr (Or.inl ⟨h1, h2, (h p).2.2.1 h3⟩))
  · exact Or.inr (Or.inr (Or.inr ⟨h1, h2, (h p).2.2.2 h3⟩))

theorem reachOpen_mono {g g' : Grid} {size : ℕ} (h : OpensMono g g') {p q : ℕ × ℕ}
    (hr : ReachOpen g size p q) : ReachOpen g' size p q :=
  Relation.ReflTransGen.mono (fun _ _ hab => openAdj_mono h hab) hr

theorem openAdj_inBounds {g : Grid} {size : ℕ} {p q : ℕ × ℕ}
    (h : openAdj g size p q) : InBounds size p ∧ InBounds size q := by
  obtain ⟨⟨hp1, hp2⟩, hcase⟩ := h
  refine ⟨⟨hp1, hp2⟩, ?_⟩
  rcases hcase with ⟨h1, rfl, -⟩ | ⟨h1, rfl, -⟩ | ⟨h1, rfl, -⟩ | ⟨h1, rfl, -⟩
  · exact ⟨hp1, by omega⟩
  · exact ⟨h1, hp2⟩
  · exact ⟨hp1, h1⟩
  · exact ⟨by omega, hp2⟩

theorem openAdj_ne {g : Grid} {size : ℕ} {p q : ℕ × ℕ} (h : openAdj g size p q) : p ≠ q := by
  obtain ⟨-, hcase⟩ := h
  rcases hcase with ⟨h1, rfl, -⟩ | ⟨h1, rfl, -⟩ | ⟨h1, rfl, -⟩ | ⟨h1, rfl, -⟩ <;>
    · intro hc
      rw [Prod.ext_iff] at hc
      omega

/-- The standard all-walls-present record. -/
def allWalls : Walls := ⟨true, true, true, true⟩

/-- Unvisited in-bounds cells still have all four walls. -/
def UnvisitedIntact (g : Grid) (size : ℕ) : Prop :=
  ∀ p, InBounds size p → (g p).visited = false → (g p).walls = allWalls

theorem openAdj_symm {g : Grid} {size : ℕ} (hsym : WallSym g size) {p q : ℕ × ℕ}
    (h : openAdj g size p q) : openAdj g size q p := by
  obtain ⟨⟨hp1, hp2⟩, hcase⟩ := h
  obtain ⟨x, y⟩ := p
  simp only at hp1 hp2
  rcases hcase with ⟨h1, rfl, h3⟩ | ⟨h1, rfl, h3⟩ | ⟨h1, rfl, h3⟩ | ⟨h1, rfl, h3⟩
  · -- q is above p; p is below q
    refine ⟨⟨hp1, by omega⟩, Or.inr (Or.inr (Or.inl ⟨by omega, by
      rw [Prod.ext_iff]
      constructor
      · rfl
      · omega, ?_⟩))⟩
    have := (hsym.2 x (y - 1) hp1 (by omega))
    rw [show y - 1 + 1 = y by omega] at this
    rw [this]
    exact h3
  · -- q is right of p; p is left of q
    refine ⟨⟨h1, hp2⟩, Or.inr (Or.inr (Or.inr ⟨by omega, by
      rw [Prod.ext_iff]
      constructor
      · simp
      · rfl, ?_⟩))⟩
    have := hsym.1 x y h1 hp2
    rw [← this]
    exact h3
  · -- q is below p; p is above q
    refine ⟨⟨hp1, h1⟩, Or.inl ⟨by omega, by
      rw [Prod.ext_iff]
      constructor
      · rfl
      · simp, ?_⟩⟩
    have := hsym.2 x y hp1 h1
    rw [← this]
    exact h3
  · -- q is left of p; p is right of q
    refine ⟨⟨by omega, hp2⟩, Or.inr (Or.inl ⟨by omega, by
      rw [Prod.ext_iff]
      constructor
      · omega
      · rfl, ?_⟩)⟩
    have := hsym.1 (x - 1) y (by omega) hp2
    rw [show x - 1 + 1 = x by omega] at this
    rw [this]
    exact h3

theorem openAdj_visited {g : Grid} {size : ℕ} (hsym : WallSym g size)
    (hint : UnvisitedIntact g size) {p q : ℕ × ℕ} (h : openAdj g size p q) :
    (g p).visited = true ∧ (g q).visited = true := by
  have hq : openAdj g size q p := openAdj_symm hsym h
  have hbp := (openAdj_inBounds h).1
  have hbq := (openAdj_inBounds h).2
  constructor
  · by_contra hv
    have hw := hint p hbp (Bool.not_eq_true _ ▸ hv)
    obtain ⟨-, hcase⟩ := h
    rcases hcase with ⟨-, -, h3⟩ | ⟨-, -, h3⟩ | ⟨-, -, h3⟩ | ⟨-, -, h3⟩ <;>
      · rw [hw] at h3
        exact absurd h3 (by simp [allWalls])
  · by_contra hv
    have hw := hint q hbq (Bool.not_eq_true _ ▸ hv)
    obtain ⟨-, hcase⟩ := hq
    rcases hcase with ⟨-, -, h3⟩ | ⟨-, -, h3⟩ | ⟨-, -, h3⟩ | ⟨-, -, h3⟩ <;>
      · rw [hw] at h3
        exact absurd h3 (by simp [allWalls])

theorem card_filter_succ_of_flip {α : Type*} [DecidableEq α] {s : Finset α}
    {p q : α → Prop} [DecidablePred p] [DecidablePred q] {a : α} (ha : a ∈ s)
    (hpa : ¬ p a) (hqa : q a) (hother : ∀ b ∈ s, b ≠ a → (q b ↔ p b)) :
    (s.filter q).card = (s.filter p).card + 1 := by
  have hins : s.filter q = insert a (s.filter p) := by
    ext b
    simp only [Finset.mem_filter, Finset.mem_insert]
    constructor
    · rintro ⟨hbs, hqb⟩
      by_cases hba : b = a
      · exact Or.inl hba
      · exact Or.inr ⟨hbs, (hother b hbs hba).mp hqb⟩
    · rintro (rfl | ⟨hbs, hpb⟩)
      · exact ⟨ha, hqa⟩
      · refine ⟨hbs, ?_⟩
        by_cases hba : b = a
        · subst hba
          exact absurd hpb hpa
        · exact (hother b hbs hba).mpr hpb
  rw [hins, Finset.card_insert_of_not_mem]
  simp [Finset.mem_filter, hpa]

theorem mem_boundsFinset {size : ℕ} {p : ℕ × ℕ} :
    p ∈ boundsFinset size ↔ InBounds size p := by
  unfold boundsFinset InBounds
  rw [Finset.mem_product, Finset.mem_range, Finset.mem_range]

/-! ### Opening one wall-pair -/

theorem clearWall_at (g : Grid) (p : ℕ × ℕ) (s : Side) :
    clearWall g p s p = { g p with walls := clearSide (g p).walls s } := by
  unfold clearWall
  rw [setCell_same]

theorem clearWall2_at_a (g : Grid) (a b : ℕ × ℕ) (sa sb : Side) (hab : a ≠ b) :
    clearWall (clearWall g a sa) b sb a = { g a with walls := clearSide (g a).walls sa } := by
  rw [clearWall_other _ b sb a hab, clearWall_at]

theorem clearWall2_at_b (g : Grid) (a b : ℕ × ℕ) (sa sb : Side) (hab : a ≠ b) :
    clearWall (clearWall g a sa) b sb b = { g b with walls := clearSide (g b).walls sb } := by
  rw [clearWall_at, clearWall_other g a sa b (Ne.symm hab)]

theorem clearWall2_other (g : Grid) (a b : ℕ × ℕ) (sa sb : Side) (q : ℕ × ℕ)
    (hqa : q ≠ a) (hqb : q ≠ b) :
    clearWall (clearWall g a sa) b sb q = g q := by
  rw [clearWall_other _ b sb q hqb, clearWall_other g a sa q hqa]

/-- The effect of a symmetric wall removal between two adjacent cells `a`
and `b`: visited flags untouched, all other cells untouched, wall symmetry
preserved, exactly one more removed wall-pair, `a–b` now open, and no other
new open step. -/
structure OpenedPair (g g' : Grid) (size : ℕ) (a b : ℕ × ℕ) : Prop where
  vis : ∀ q, (g' q).visited = (g q).visited
  untouched : ∀ q, q ≠ a → q ≠ b → g' q = g q
  sym : WallSym g' size
  count : openEdgeCount g' size = openEdgeCount g size + 1
  opened : openAdj g' size a b
  newOnly : ∀ p q, openAdj g' size p q →
    openAdj g size p q ∨ (p = a ∧ q = b) ∨ (p = b ∧ q = a)

theorem opened_horizontal (g : Grid) (size x y : ℕ) (hx : x + 1 < size) (hy : y < size)
    (hsym : WallSym g size) (hflag : (g (x, y)).walls.right = true) :
    OpenedPair g (clearWall (clearWall g (x, y) .right) (x + 1, y) .left) size
      (x, y) (x + 1, y) := by
  have hab : (x, y) ≠ (x + 1, y) := by
    rw [Ne, Prod.ext_iff]
    omega
  set g' := clearWall (clearWall g (x, y) .right) (x + 1, y) .left with hg'
  have hga : g' (x, y) = { g (x, y) with walls := clearSide (g (x, y)).walls .right } :=
    clearWall2_at_a g _ _ _ _ hab
  have hgb : g' (x + 1, y) = { g (x + 1, y) with walls := clearSide (g (x + 1, y)).walls .left } :=
    clearWall2_at_b g _ _ _ _ hab
  have hoth : ∀ q, q ≠ (x, y) → q ≠ (x + 1, y) → g' q = g q := fun q h1 h2 =>
    clearWall2_other g _ _ _ _ q h1 h2
  have hTopBot : ∀ q, (g' q).walls.top = (g q).walls.top ∧
      (g' q).walls.bottom = (g q).walls.bottom := by
    intro q
    by_cases h1 : q = (x, y)
    · subst h1
      rw [hga]
      exact ⟨rfl, rfl⟩
    · by_cases h2 : q = (x + 1, y)
      · subst h2
        rw [hgb]
        exact ⟨rfl, rfl⟩
      · rw [hoth q h1 h2]
        exact ⟨rfl, rfl⟩
  have hRight : ∀ q, q ≠ (x, y) → (g' q).walls.right = (g q).walls.right := by
    intro q h1
    by_cases h2 : q = (x + 1, y)
    · subst h2
      rw [hgb]
      rfl
    · rw [hoth q h1 h2]
  have hLeft : ∀ q, q ≠ (x + 1, y) → (g' q).walls.left = (g q).walls.left := by
    intro q h2
    by_cases h1 : q = (x, y)
    · subst h1
      rw [hga]
      rfl
    · rw [hoth q h1 h2]
  have hAright : (g' (x, y)).walls.right = false := by
    rw [hga]
    rfl
  have hBleft : (g' (x + 1, y)).walls.left = false := by
    rw [hgb]
    rfl
  have hvis : ∀ q, (g' q).visited = (g q).visited := by
    intro q
    by_cases h1 : q = (x, y)
    · subst h1
      rw [hga]
    · by_cases h2 : q = (x + 1, y)
      · subst h2
        rw [hgb]
      · rw [hoth q h1 h2]
  refine ⟨hvis, hoth, ⟨?_, ?_⟩, ?_, ?_, ?_⟩
  · -- right-left symmetry
    intro x' y' hx' hy'
    by_cases h1 : (x', y') = ((x, y) : ℕ × ℕ)
    · have h2 : ((x' + 1, y') : ℕ × ℕ) = (x + 1, y) := by
        rw [Prod.ext_iff] at h1 ⊢
        simp only at h1 ⊢
        omega
      rw [h1, h2, hAright, hBleft]
    · rw [hRight _ h1]
      by_cases h2 : ((x' + 1, y') : ℕ × ℕ) = (x + 1, y)
      · exfalso
        apply h1
        rw [Prod.ext_iff] at h2 ⊢
        simp only at h2 ⊢
        omega
      · rw [hLeft _ h2]
        exact hsym.1 x' y' hx' hy'
  · -- bottom-top symmetry: no vertical flag changed
    intro x' y' hx' hy'
    rw [(hTopBot (x', y')).2, (hTopBot (x', y' + 1)).1]
    exact hsym.2 x' y' hx' hy'
  · -- count
    unfold openEdgeCount
    have hr : ((boundsFinset size).filter fun p =>
        p.1 + 1 < size ∧ (g' p).walls.right = false).card =
        ((boundsFinset size).filter fun p =>
          p.1 + 1 < size ∧ (g p).walls.right = false).card + 1 := by
      have hmemxy : (x, y) ∈ boundsFinset size := mem_boundsFinset.mpr ⟨by omega, hy⟩
      refine card_filter_succ_of_flip hmemxy
        ?_ ?_ ?_
      · rintro ⟨-, hgr⟩
        rw [hflag] at hgr
        simp at hgr
      · exact ⟨hx, hAright⟩
      · intro b _ hba
        rw [hRight b hba]
    have hb : ((boundsFinset size).filter fun p =>
        p.2 + 1 < size ∧ (g' p).walls.bottom = false) =
        (boundsFinset size).filter fun p => p.2 + 1 < size ∧ (g p).walls.bottom = false := by
      apply Finset.filter_congr
      intro q _
      rw [(hTopBot q).2]
    rw [hr, hb]
    omega
  · exact ⟨⟨by omega, hy⟩, Or.inr (Or.inl ⟨hx, rfl, hAright⟩)⟩
  · -- no other new open step
    intro p q hadj
    obtain ⟨hin, hcase⟩ := hadj
    by_cases hpa : p = (x, y)
    · subst hpa
      rcases hcase with ⟨h1, h2, h3⟩ | ⟨h1, h2, h3⟩ | ⟨h1, h2, h3⟩ | ⟨h1, h2, h3⟩
      · exact Or.inl ⟨hin, Or.inl ⟨h1, h2, ((hTopBot _).1).symm.trans h3⟩⟩
      · exact Or.inr (Or.inl ⟨rfl, h2⟩)
      · exact Or.inl ⟨hin, Or.inr (Or.inr (Or.inl ⟨h1, h2, ((hTopBot _).2).symm.trans h3⟩))⟩
      · exact Or.inl ⟨hin, Or.inr (Or.inr (Or.inr ⟨h1, h2,
          by rw [hga] at h3; exact h3⟩))⟩
    · by_cases hpb : p = (x + 1, y)
      · subst hpb
        rcases hcase with ⟨h1, h2, h3⟩ | ⟨h1, h2, h3⟩ | ⟨h1, h2, h3⟩ | ⟨h1, h2, h3⟩
        · exact Or.inl ⟨hin, Or.inl ⟨h1, h2, ((hTopBot _).1).symm.trans h3⟩⟩
        · exact Or.inl ⟨hin, Or.inr (Or.inl ⟨h1, h2,
            by rw [hgb] at h3; exact h3⟩)⟩
        · exact Or.inl ⟨hin, Or.inr (Or.inr (Or.inl ⟨h1, h2, ((hTopBot _).2).symm.trans h3⟩))⟩
        · refine Or.inr (Or.inr ⟨rfl, ?_⟩)
          rw [h2]
          simp
      · have hsame : g' p = g p := hoth p hpa hpb
        rw [hsame] at hcase
        exact Or.inl ⟨hin, hcase⟩

theorem opened_vertical (g : Grid) (size x y : ℕ) (hx : x < size) (hy : y + 1 < size)
    (hsym : WallSym g size) (hflag : (g (x, y)).walls.bottom = true) :
    OpenedPair g (clearWall (clearWall g (x, y) .bottom) (x, y + 1) .top) size
      (x, y) (x, y + 1) := by
  have hab : (x, y) ≠ (x, y + 1) := by
    rw [Ne, Prod.ext_iff]
    omega
  set g' := clearWall (clearWall g (x, y) .bottom) (x, y + 1) .top with hg'
  have hga : g' (x, y) = { g (x, y) with walls := clearSide (g (x, y)).walls .bottom } :=
    clearWall2_at_a g _ _ _ _ hab
  have hgb : g' (x, y + 1) = { g (x, y + 1) with walls := clearSide (g (x, y + 1)).walls .top } :=
    clearWall2_at_b g _ _ _ _ hab
  have hoth : ∀ q, q ≠ (x, y) → q ≠ (x, y + 1) → g' q = g q := fun q h1 h2 =>
    clearWall2_other g _ _ _ _ q h1 h2
  have hLR : ∀ q, (g' q).walls.left = (g q).walls.left ∧
      (g' q).walls.right = (g q).walls.right := by
    intro q
    by_cases h1 : q = (x, y)
    · subst h1
      rw [hga]
      exact ⟨rfl, rfl⟩
    · by_cases h2 : q = (x, y + 1)
      · subst h2
        rw [hgb]
        exact ⟨rfl, rfl⟩
      · rw [hoth q h1 h2]
        exact ⟨rfl, rfl⟩
  have hBottom : ∀ q, q ≠ (x, y) → (g' q).walls.bottom = (g q).walls.bottom := by
    intro q h1
    by_cases h2 : q = (x, y + 1)
    · subst h2
      rw [hgb]
      rfl
    · rw [hoth q h1 h2]
  have hTop : ∀ q, q ≠ (x, y + 1) → (g' q).walls.top = (g q).walls.top := by
    intro q h2
    by_cases h1 : q = (x, y)
    · subst h1
      rw [hga]
      rfl
    · rw [hoth q h1 h2]
  have hAbot : (g' (x, y)).walls.bottom = false := by
    rw [hga]
    rfl
  have hBtop : (g' (x, y + 1)).walls.top = false := by
    rw [hgb]
    rfl
  have hvis : ∀ q, (g' q).visited = (g q).visited := by
    intro q
    by_cases h1 : q = (x, y)
    · subst h1
      rw [hga]
    · by_cases h2 : q = (x, y + 1)
      · subst h2
        rw [hgb]
      · rw [hoth q h1 h2]
  refine ⟨hvis, hoth, ⟨?_, ?_⟩, ?_, ?_, ?_⟩
  · -- right-left symmetry: no horizontal flag changed
    intro x' y' hx' hy'
    rw [(hLR (x', y')).2, (hLR (x' + 1, y')).1]
    exact hsym.1 x' y' hx' hy'
  · -- bottom-top symmetry
    intro x' y' hx' hy'
    by_cases h1 : (x', y') = ((x, y) : ℕ × ℕ)
    · have h2 : ((x', y' + 1) : ℕ × ℕ) = (x, y + 1) := by
        rw [Prod.ext_iff] at h1 ⊢
        simp only at h1 ⊢
        omega
      rw [h1, h2, hAbot, hBtop]
    · rw [hBottom _ h1]
      by_cases h2 : ((x', y' + 1) : ℕ × ℕ) = (x, y + 1)
      · exfalso
        apply h1
        rw [Prod.ext_iff] at h2 ⊢
        simp only at h2 ⊢
        omega
      · rw [hTop _ h2]
        exact hsym.2 x' y' hx' hy'
  · -- count
    unfold openEdgeCount
    have hr : ((boundsFinset size).filter fun p =>
        p.1 + 1 < size ∧ (g' p).walls.right = false) =
        (boundsFinset size).filter fun p => p.1 + 1 < size ∧ (g p).walls.right = false := by
      apply Finset.filter_congr
      intro q _
      rw [(hLR q).2]
    have hb : ((boundsFinset size).filter fun p =>
        p.2 + 1 < size ∧ (g' p).walls.bottom = false).card =
        ((boundsFinset size).filter fun p =>
          p.2 + 1 < size ∧ (g p).walls.bottom = false).card + 1 := by
      have hmemxy : (x, y) ∈ boundsFinset size := mem_boundsFinset.mpr ⟨hx, by omega⟩
      refine card_filter_succ_of_flip hmemxy
        ?_ ?_ ?_
      · rintro ⟨-, hgr⟩
        rw [hflag] at hgr
        simp at hgr
      · exact ⟨hy, hAbot⟩
      · intro b _ hba
        rw [hBottom b hba]
    rw [hr, hb]
    omega
  · exact ⟨⟨hx, by omega⟩, Or.inr (Or.inr (Or.inl ⟨hy, rfl, hAbot⟩))⟩
  · -- no other new open step
    intro p q hadj
    obtain ⟨hin, hcase⟩ := hadj
    by_cases hpa : p = (x, y)
    · subst hpa
      rcases hcase with ⟨h1, h2, h3⟩ | ⟨h1, h2, h3⟩ | ⟨h1, h2, h3⟩ | ⟨h1, h2, h3⟩
      · exact Or.inl ⟨hin, Or.inl ⟨h1, h2,
          by rw [hga] at h3; exact h3⟩⟩
      · exact Or.inl ⟨hin, Or.inr (Or.inl ⟨h1, h2, ((hLR _).2).symm.trans h3⟩)⟩
      · exact Or.inr (Or.inl ⟨rfl, h2⟩)
      · exact Or.inl ⟨hin, Or.inr (Or.inr (Or.inr ⟨h1, h2, ((hLR _).1).symm.trans h3⟩))⟩
    · by_cases hpb : p = (x, y + 1)
      · subst hpb
        rcases hcase with ⟨h1, h2, h3⟩ | ⟨h1, h2, h3⟩ | ⟨h1, h2, h3⟩ | ⟨h1, h2, h3⟩
        · refine Or.inr (Or.inr ⟨rfl, ?_⟩)
          rw [h2]
          simp
        · exact Or.inl ⟨hin, Or.inr (Or.inl ⟨h1, h2, ((hLR _).2).symm.trans h3⟩)⟩
        · exact Or.inl ⟨hin, Or.inr (Or.inr (Or.inl ⟨h1, h2,
            by rw [hgb] at h3; exact h3⟩))⟩
        · exact Or.inl ⟨hin, Or.inr (Or.inr (Or.inr ⟨h1, h2, ((hLR _).1).symm.trans h3⟩))⟩
      · have hsame : g' p = g p := hoth p hpa hpb
        rw [hsame] at hcase
        exact Or.inl ⟨hin, hcase⟩

theorem clearWall_comm (g : Grid) {a b : ℕ × ℕ} (hab : a ≠ b) (sa sb : Side) :
    clearWall (clearWall g a sa) b sb = clearWall (clearWall g b sb) a sa := by
  funext q
  by_cases hqa : q = a
  · subst hqa
    rw [clearWall2_at_a g q b sa sb hab, clearWall2_at_b g b q sb sa (Ne.symm hab)]
  · by_cases hqb : q = b
    · subst hqb
      rw [clearWall2_at_b g a q sa sb hab, clearWall2_at_a g q a sb sa (Ne.symm hab)]
    · rw [clearWall2_other g a b sa sb q hqa hqb, clearWall2_other g b a sb sa q hqb hqa]

theorem removeWall_right (g : Grid) (x y : ℕ) :
    removeWall g (x, y) (x + 1, y) =
      clearWall (clearWall g (x, y) .right) (x + 1, y) .left := by
  simp only [removeWall]
  split_ifs <;> first | rfl | (exfalso; omega)

theorem removeWall_left (g : Grid) (x y : ℕ) :
    removeWall g (x + 1, y) (x, y) =
      clearWall (clearWall g (x + 1, y) .left) (x, y) .right := by
  simp only [removeWall]
  split_ifs <;> first | rfl | (exfalso; omega)

theorem removeWall_down (g : Grid) (x y : ℕ) :
    removeWall g (x, y) (x, y + 1) =
      clearWall (clearWall g (x, y) .bottom) (x, y + 1) .top := by
  simp only [removeWall]
  split_ifs <;> first | rfl | (exfalso; omega)

theorem removeWall_up (g : Grid) (x y : ℕ) :
    removeWall g (x, y + 1) (x, y) =
      clearWall (clearWall g (x, y + 1) .top) (x, y) .bottom := by
  simp only [removeWall]
  split_ifs <;> first | rfl | (exfalso; omega)

theorem neighborCandidates_inBounds {size : ℕ} {cur q : ℕ × ℕ}
    (hcur : InBounds size cur) (h : q ∈ neighborCandidates size cur) :
    InBounds size q := by
  obtain ⟨x, y⟩ := cur
  obtain ⟨hx, hy⟩ := hcur
  simp only at hx hy
  rcases mem_neighborCandidates.mp h with ⟨h1, rfl⟩ | ⟨h1, rfl⟩ | ⟨h1, rfl⟩ | ⟨h1, rfl⟩ <;>
    exact ⟨by omega, by omega⟩

/-- The symmetric wall removal performed by the carving step, packaged as an
`OpenedPair` between `current` and `next` in canonical orientation. -/
theorem removeWall_openedPair (g : Grid) (size : ℕ) (cur next : ℕ × ℕ)
    (hcur : InBounds size cur) (hcand : next ∈ neighborCandidates size cur)
    (hnvis : (g next).visited = false)
    (hsym : WallSym g size) (hint : UnvisitedIntact g size) :
    ∃ a b, ((a, b) = (cur, next) ∨ (a, b) = (next, cur)) ∧
      OpenedPair g (removeWall g cur next) size a b := by
  obtain ⟨x, y⟩ := cur
  obtain ⟨hx, hy⟩ := hcur
  simp only at hx hy
  have hcurxy : InBounds size (x, y) := ⟨hx, hy⟩
  have hnext := neighborCandidates_inBounds hcurxy hcand
  have hnw : (g next).walls = allWalls := hint next hnext hnvis
  rcases mem_neighborCandidates.mp hcand with ⟨h1, rfl⟩ | ⟨h1, rfl⟩ | ⟨h1, rfl⟩ | ⟨h1, rfl⟩
  · -- next above: (x, y - 1)
    simp only at h1 hnext hnw ⊢
    obtain ⟨y', rfl⟩ : ∃ y', y = y' + 1 := ⟨y - 1, by omega⟩
    rw [show y' + 1 - 1 = y' from by omega] at hnw hnext ⊢
    refine ⟨(x, y'), (x, y' + 1), Or.inr rfl, ?_⟩
    rw [removeWall_up g x y', clearWall_comm g (by rw [Ne, Prod.ext_iff]; omega)]
    refine opened_vertical g size x y' hx hy hsym ?_
    rw [hnw]
    rfl
  · -- next right: (x + 1, y)
    simp only at h1 hnext hnw ⊢
    have hx1 : x + 1 < size := by omega
    refine ⟨(x, y), (x + 1, y), Or.inl rfl, ?_⟩
    rw [removeWall_right g x y]
    refine opened_horizontal g size x y hx1 hy hsym ?_
    rw [hsym.1 x y hx1 hy, hnw]
    rfl
  · -- next below: (x, y + 1)
    simp only at h1 hnext hnw ⊢
    have hy1 : y + 1 < size := by omega
    refine ⟨(x, y), (x, y + 1), Or.inl rfl, ?_⟩
    rw [removeWall_down g x y]
    refine opened_vertical g size x y hx hy1 hsym ?_
    rw [hsym.2 x y hx hy1, hnw]
    rfl
  · -- next left: (x - 1, y)
    simp only at h1 hnext hnw ⊢
    obtain ⟨x', rfl⟩ : ∃ x', x = x' + 1 := ⟨x - 1, by omega⟩
    rw [show x' + 1 - 1 = x' from by omega] at hnw hnext ⊢
    refine ⟨(x', y), (x' + 1, y), Or.inr rfl, ?_⟩
    rw [removeWall_left g x' y, clearWall_comm g (by rw [Ne, Prod.ext_iff]; omega)]
    refine opened_horizontal g size x' y hx hy hsym ?_
    rw [hnw]
    rfl

/-! ### The carving invariant -/

theorem openAdj_walls_congr {g h : Grid} {size : ℕ}
    (hw : ∀ p, (h p).walls = (g p).walls) {p q : ℕ × ℕ} :
    openAdj g size p q ↔ openAdj h size p q := by
  unfold openAdj
  rw [hw p]

theorem wallSym_walls_congr {g h : Grid} {size : ℕ}
    (hw : ∀ p, (h p).walls = (g p).walls) (hs : WallSym g size) : WallSym h size := by
  constructor
  · intro x y h1 h2
    rw [hw, hw]
    exact hs.1 x y h1 h2
  · intro x y h1 h2
    rw [hw, hw]
    exact hs.2 x y h1 h2

theorem openEdgeCount_walls_congr {g h : Grid} {size : ℕ}
    (hw : ∀ p, (h p).walls = (g p).walls) :
    openEdgeCount h size = openEdgeCount g size := by
  unfold openEdgeCount
  congr 1
  · apply congrArg
    apply Finset.filter_congr
    intro q _
    rw [hw q]
  · apply congrArg
    apply Finset.filter_congr
    intro q _
    rw [hw q]

theorem opensMono_of_walls_congr {g h : Grid}
    (hw : ∀ p, (h p).walls = (g p).walls) : OpensMono g h := by
  intro p
  rw [hw p]
  exact ⟨id, id, id, id⟩

theorem getUnvisitedNeighbors_nil_mono {g h : Grid} {size : ℕ} {p : ℕ × ℕ}
    (hmono : ∀ q, (g q).visited = true → (h q).visited = true)
    (hnil : getUnvisitedNeighbors p g size = []) :
    getUnvisitedNeighbors p h size = [] := by
  unfold getUnvisitedNeighbors at hnil ⊢
  rw [List.filter_eq_nil_iff] at hnil ⊢
  intro a ha
  have := hnil a ha
  simp only [Bool.not_eq_true', Bool.not_eq_false] at this ⊢
  exact hmono a this

/-- The timestamp/parent certificate that keeps the open-wall graph acyclic:
every visited cell has a timestamp below `bound`, timestamps are injective on
visited cells, and every open wall connects a cell to the recorded parent of
its later-stamped endpoint. -/
def TreeData (g : Grid) (size : ℕ) : Prop :=
  ∃ (t : (ℕ × ℕ) → ℕ) (par : (ℕ × ℕ) → ℕ × ℕ) (bound : ℕ),
    (∀ p, InBounds size p → (g p).visited = true → t p < bound) ∧
    (∀ p q, InBounds size p → InBounds size q → (g p).visited = true →
      (g q).visited = true → t p = t q → p = q) ∧
    (∀ p q, openAdj g size p q → (t p < t q ∧ par q = p) ∨ (t q < t p ∧ par p = q))

/-- The invariant of the carving loop. -/
structure CarveInv (size : ℕ) (st : CarveState) : Prop where
  sym : WallSym st.grid size
  intact : UnvisitedIntact st.grid size
  curIn : InBounds size st.currentCell
  curVis : (st.grid st.currentCell).visited = true
  stackIn : ∀ p ∈ st.stack, InBounds size p
  stackVis : ∀ p ∈ st.stack, (st.grid p).visited = true
  count : openEdgeCount st.grid size + 1 = visitedCount st.grid size
  reach : ∀ p, InBounds size p → (st.grid p).visited = true →
    ReachOpen st.grid size (0, 0) p
  finished : ∀ p, InBounds size p → (st.grid p).visited = true → p ∉ st.stack →
    p ≠ st.currentCell → getUnvisitedNeighbors p st.grid size = []
  tree : TreeData st.grid size

theorem carveInv_visit (size : ℕ) (st : CarveState) (hinv : CarveInv size st)
    (next : ℕ × ℕ) (hmem : next ∈ getUnvisitedNeighbors st.currentCell st.grid size)
    (draws' : ℕ) :
    CarveInv size ⟨setVisited (removeWall st.grid st.currentCell next) next,
      st.currentCell :: st.stack, next, draws'⟩ := by
  set g := st.grid with hg
  set cur := st.currentCell with hcur
  obtain ⟨hcand, hnvis⟩ := mem_getUnvisitedNeighbors.mp hmem
  have hnextIn : InBounds size next := neighborCandidates_inBounds hinv.curIn hcand
  have hcurne : cur ≠ next := by
    intro h
    have hv := hinv.curVis
    rw [← hg, ← hcur, h, hnvis] at hv
    exact absurd hv (by simp)
  obtain ⟨a, b, hab, hop⟩ :=
    removeWall_openedPair g size cur next hinv.curIn hcand hnvis hinv.sym hinv.intact
  set g' := removeWall g cur next with hg'
  set g'' := setVisited g' next with hg''
  have hwalls : ∀ q, (g'' q).walls = (g' q).walls := fun q => setVisited_walls g' next q
  -- direction-normalized facts
  have hopCN : openAdj g' size cur next := by
    rcases hab with h | h
    · obtain ⟨rfl, rfl⟩ : a = cur ∧ b = next := Prod.mk.injEq .. ▸ Prod.mk.inj h
      exact hop.opened
    · obtain ⟨rfl, rfl⟩ : a = next ∧ b = cur := Prod.mk.inj h
      exact openAdj_symm hop.sym hop.opened
  have hnewOnly : ∀ p q, openAdj g' size p q →
      openAdj g size p q ∨ (p = cur ∧ q = next) ∨ (p = next ∧ q = cur) := by
    intro p q hpq
    rcases hab with h | h
    · obtain ⟨rfl, rfl⟩ : a = cur ∧ b = next := Prod.mk.inj h
      exact hop.newOnly p q hpq
    · obtain ⟨rfl, rfl⟩ : a = next ∧ b = cur := Prod.mk.inj h
      rcases hop.newOnly p q hpq with h' | ⟨h1, h2⟩ | ⟨h1, h2⟩
      · exact Or.inl h'
      · exact Or.inr (Or.inr ⟨h1, h2⟩)
      · exact Or.inr (Or.inl ⟨h1, h2⟩)
  have huntouched : ∀ q, q ≠ cur → q ≠ next → g' q = g q := by
    intro q h1 h2
    rcases hab with h | h
    · obtain ⟨rfl, rfl⟩ : a = cur ∧ b = next := Prod.mk.inj h
      exact hop.untouched q h1 h2
    · obtain ⟨rfl, rfl⟩ : a = next ∧ b = cur := Prod.mk.inj h
      exact hop.untouched q h2 h1
  have hvis' : ∀ q, (g' q).visited = (g q).visited := hop.vis
  have hvis'' : ∀ q, (g'' q).visited = if q = next then true else (g q).visited := by
    intro q
    rw [hg'', setVisited_visited, hvis' q]
  have hvisMono : ∀ q, (g q).visited = true → (g'' q).visited = true := by
    intro q hq
    rw [hvis'' q]
    split_ifs <;> simp [hq]
  have hnextVis : (g'' next).visited = true := by
    rw [hvis'' next, if_pos rfl]
  have hmonoAll : OpensMono g g'' :=
    opensMono_trans (opensMono_removeWall g cur next) (opensMono_setVisited g' next)
  have hadjCN : openAdj g'' size cur next :=
    (openAdj_walls_congr hwalls).mp hopCN
  have hsym'' : WallSym g'' size := wallSym_walls_congr hwalls hop.sym
  refine ⟨hsym'', ?_, hnextIn, hnextVis, ?_, ?_, ?_, ?_, ?_, ?_⟩
  · -- intact
    intro p hpIn hpvis
    have hpne : p ≠ next := by
      intro h
      rw [h, hnextVis] at hpvis
      exact absurd hpvis (by simp)
    rw [hvis'' p, if_neg hpne] at hpvis
    have hpnc : p ≠ cur := by
      intro h
      rw [h, hinv.curVis] at hpvis
      exact absurd hpvis (by simp)
    rw [hwalls p, huntouched p hpnc hpne]
    exact hinv.intact p hpIn hpvis
  · -- stackIn
    intro p hp
    rcases List.mem_cons.mp hp with rfl | hp
    · exact hinv.curIn
    · exact hinv.stackIn p hp
  · -- stackVis
    intro p hp
    rcases List.mem_cons.mp hp with rfl | hp
    · exact hvisMono _ hinv.curVis
    · exact hvisMono p (hinv.stackVis p hp)
  · -- count
    have hopen'' : openEdgeCount g'' size = openEdgeCount g size + 1 := by
      rw [openEdgeCount_walls_congr hwalls, hop.count]
    have hvc : visitedCount g'' size = visitedCount g size + 1 := by
      unfold visitedCount
      have hmemnext : next ∈ boundsFinset size := mem_boundsFinset.mpr hnextIn
      refine card_filter_succ_of_flip hmemnext ?_ ?_ ?_
      · rw [hnvis]
        simp
      · exact hnextVis
      · intro q _ hq
        rw [hvis'' q, if_neg hq]
    rw [hopen'', hvc, ← hinv.count]
  · -- reach
    intro p hpIn hpvis
    by_cases hpn : p = next
    · subst hpn
      have hcr : ReachOpen g'' size (0, 0) cur :=
        reachOpen_mono hmonoAll (hinv.reach cur hinv.curIn hinv.curVis)
      exact Relation.ReflTransGen.tail hcr hadjCN
    · rw [hvis'' p, if_neg hpn] at hpvis
      exact reachOpen_mono hmonoAll (hinv.reach p hpIn hpvis)
  · -- finished
    intro p hpIn hpvis hpstack hpcur
    have hpne : p ≠ next := hpcur
    have hpnc : p ≠ cur := fun h => hpstack (h ▸ List.mem_cons_self cur st.stack)
    have hpst : p ∉ st.stack := fun h => hpstack (List.mem_cons_of_mem cur h)
    rw [hvis'' p, if_neg hpne] at hpvis
    exact getUnvisitedNeighbors_nil_mono hvisMono
      (hinv.finished p hpIn hpvis hpst hpnc)
  · -- tree
    obtain ⟨t, par, bound, hbound, hinj, hedge⟩ := hinv.tree
    refine ⟨Function.update t next bound, Function.update par next cur, bound + 1,
      ?_, ?_, ?_⟩
    · intro p hpIn hpvis
      by_cases hpn : p = next
      · subst hpn
        rw [Function.update_same]
        omega
      · rw [Function.update_noteq hpn]
        rw [hvis'' p, if_neg hpn] at hpvis
        exact Nat.lt_succ_of_lt (hbound p hpIn hpvis)
    · intro p q hpIn hqIn hpvis hqvis htpq
      by_cases hpn : p = next <;> by_cases hqn : q = next
      · rw [hpn, hqn]
      · exfalso
        rw [hvis'' q, if_neg hqn] at hqvis
        rw [hpn, Function.update_same, Function.update_noteq hqn] at htpq
        exact absurd htpq.symm (Nat.ne_of_lt (hbound q hqIn hqvis))
      · exfalso
        rw [hvis'' p, if_neg hpn] at hpvis
        rw [hqn, Function.update_same, Function.update_noteq hpn] at htpq
        exact absurd htpq (Nat.ne_of_lt (hbound p hpIn hpvis))
      · rw [Function.update_noteq hpn, Function.update_noteq hqn] at htpq
        rw [hvis'' p, if_neg hpn] at hpvis
        rw [hvis'' q, if_neg hqn] at hqvis
        exact hinj p q hpIn hqIn hpvis hqvis htpq
    · intro p q hpq
      have hpq' : openAdj g' size p q := (openAdj_walls_congr hwalls).mpr hpq
      rcases hnewOnly p q hpq' with hold | ⟨rfl, rfl⟩ | ⟨rfl, rfl⟩
      · obtain ⟨hpv, hqv⟩ := openAdj_visited hinv.sym hinv.intact hold
        have hpn : p ≠ next := fun h => by
          rw [h, hnvis] at hpv
          exact absurd hpv (by simp)
        have hqn : q ≠ next := fun h => by
          rw [h, hnvis] at hqv
          exact absurd hqv (by simp)
        rcases hedge p q hold with ⟨h1, h2⟩ | ⟨h1, h2⟩
        · exact Or.inl ⟨by rw [Function.update_noteq hpn, Function.update_noteq hqn]; exact h1,
            by rw [Function.update_noteq hqn]; exact h2⟩
        · exact Or.inr ⟨by rw [Function.update_noteq hpn, Function.update_noteq hqn]; exact h1,
            by rw [Function.update_noteq hpn]; exact h2⟩
      · -- the new edge, oriented current → next
        refine Or.inl ⟨?_, ?_⟩
        · rw [Function.update_noteq hcurne, Function.update_same]
          exact hbound cur hinv.curIn hinv.curVis
        · rw [Function.update_same]
      · -- the new edge, oriented next → current
        refine Or.inr ⟨?_, ?_⟩
        · rw [Function.update_noteq hcurne, Function.update_same]
          exact hbound cur hinv.curIn hinv.curVis
        · rw [Function.update_same]

theorem carveInv_pop (size : ℕ) (st : CarveState) (hinv : CarveInv size st)
    (c : ℕ × ℕ) (rest : List (ℕ × ℕ)) (hstack : st.stack = c :: rest)
    (hns : getUnvisitedNeighbors st.currentCell st.grid size = []) :
    CarveInv size ⟨st.grid, rest, c, st.draws⟩ := by
  have hcmem : c ∈ st.stack := by
    rw [hstack]
    exact List.mem_cons_self c rest
  refine ⟨hinv.sym, hinv.intact, hinv.stackIn c hcmem, hinv.stackVis c hcmem, ?_, ?_,
    hinv.count, hinv.reach, ?_, hinv.tree⟩
  · intro p hp
    exact hinv.stackIn p (by rw [hstack]; exact List.mem_cons_of_mem c hp)
  · intro p hp
    exact hinv.stackVis p (by rw [hstack]; exact List.mem_cons_of_mem c hp)
  · intro p hpIn hpvis hprest hpc
    by_cases hpcur : p = st.currentCell
    · subst hpcur
      exact hns
    · refine hinv.finished p hpIn hpvis ?_ hpcur
      rw [hstack]
      intro h
      rcases List.mem_cons.mp h with h | h
      · exact hpc h
      · exact hprest h

theorem carveInv_step (size : ℕ) (choice : ℕ → ℕ) (st : CarveState)
    (hinv : CarveInv size st) : CarveInv size (carveStep size choice st) := by
  simp only [carveStep]
  by_cases hns : getUnvisitedNeighbors st.currentCell st.grid size = []
  · rw [dif_neg (not_not.mpr hns)]
    cases hstack : st.stack with
    | nil => exact hinv
    | cons c rest => exact carveInv_pop size st hinv c rest hstack hns
  · rw [dif_pos hns]
    exact carveInv_visit size st hinv _
      (List.get_mem _ _ _) _

/-! ### Termination of the carving loop and the final state -/

/-- The loop variant: each body iteration either visits a new cell (stack
grows by one, unvisited count drops by one) or pops the stack. -/
def carveMeasure (size : ℕ) (st : CarveState) : ℕ :=
  2 * unvisitedCount st.grid size + st.stack.length

/-- The `do … while` exit condition. -/
def CarveDone (size : ℕ) (st : CarveState) : Prop :=
  st.stack = [] ∧ getUnvisitedNeighbors st.currentCell st.grid size = []

theorem carveStep_progress (size : ℕ) (choice : ℕ → ℕ) (st : CarveState)
    (hinv : CarveInv size st) :
    (carveStep size choice st = st ∧ CarveDone size st) ∨
      carveMeasure size (carveStep size choice st) < carveMeasure size st := by
  simp only [carveStep]
  by_cases hns : getUnvisitedNeighbors st.currentCell st.grid size = []
  · rw [dif_neg (not_not.mpr hns)]
    cases hstack : st.stack with
    | nil =>
        left
        exact ⟨rfl, hstack, hns⟩
    | cons c rest =>
        right
        unfold carveMeasure
        simp only [hstack, List.length_cons]
        omega
  · rw [dif_pos hns]
    right
    have hnmem : (getUnvisitedNeighbors st.currentCell st.grid size).get
        ⟨choice st.draws % (getUnvisitedNeighbors st.currentCell st.grid size).length,
          Nat.mod_lt _ (List.length_pos.mpr hns)⟩ ∈
        getUnvisitedNeighbors st.currentCell st.grid size :=
      List.get_mem _ _ _
    set next := (getUnvisitedNeighbors st.currentCell st.grid size).get
      ⟨choice st.draws % (getUnvisitedNeighbors st.currentCell st.grid size).length,
        Nat.mod_lt _ (List.length_pos.mpr hns)⟩ with hnext
    obtain ⟨hcand, hnvis⟩ := mem_getUnvisitedNeighbors.mp hnmem
    have hnextIn : InBounds size next := neighborCandidates_inBounds hinv.curIn hcand
    have hcombined : ∀ q,
        ((setVisited (removeWall st.grid st.currentCell next) next) q).visited =
          if q = next then true else (st.grid q).visited := by
      intro q
      rw [setVisited_visited, removeWall_visited]
    have hvc : unvisitedCount st.grid size =
        unvisitedCount (setVisited (removeWall st.grid st.currentCell next) next) size + 1 := by
      unfold unvisitedCount
      have hmemnext : next ∈ boundsFinset size := mem_boundsFinset.mpr hnextIn
      refine card_filter_succ_of_flip hmemnext ?_ ?_ ?_
      · rw [hcombined next, if_pos rfl]
        simp
      · exact hnvis
      · intro q _ hq
        rw [hcombined q, if_neg hq]
    unfold carveMeasure
    simp only [List.length_cons]
    omega

theorem carveLoop_spec (size : ℕ) (choice : ℕ → ℕ) :
    ∀ (fuel : ℕ) (st : CarveState), CarveInv size st → carveMeasure size st < fuel →
      CarveInv size (carveLoop size choice fuel st) ∧
        CarveDone size (carveLoop size choice fuel st) := by
  intro fuel
  induction fuel with
  | zero =>
      intro st _ h
      exact absurd h (Nat.not_lt_zero _)
  | succ fuel ih =>
      intro st hinv hfuel
      simp only [carveLoop]
      set st' := carveStep size choice st with hst'
      have hinv' : CarveInv size st' := carveInv_step size choice st hinv
      by_cases hdone : st'.stack = [] ∧
          getUnvisitedNeighbors st'.currentCell st'.grid size = []
      · rw [if_pos hdone]
        exact ⟨hinv', hdone⟩
      · rw [if_neg hdone]
        rcases carveStep_progress size choice st hinv with ⟨heq, hd⟩ | hlt
        · exfalso
          apply hdone
          rw [hst', heq]
          exact hd
        · rw [← hst'] at hlt
          exact ih st' hinv' (by omega)

theorem carveInv_init (size : ℕ) (hsize : 0 < size) :
    CarveInv size ⟨setVisited initializeGrid (0, 0), [], (0, 0), 0⟩ := by
  set g := setVisited initializeGrid (0, 0) with hgdef
  have hw : ∀ p, (g p).walls = allWalls := by
    intro p
    rw [hgdef, setVisited_walls]
    rfl
  have hv : ∀ p, (g p).visited = if p = ((0 : ℕ), (0 : ℕ)) then true else false := by
    intro p
    rw [hgdef, setVisited_visited]
    split_ifs <;> rfl
  have hvisOnly : ∀ p, (g p).visited = true → p = ((0 : ℕ), (0 : ℕ)) := by
    intro p hp
    rw [hv p] at hp
    by_contra hne
    rw [if_neg hne] at hp
    exact absurd hp (by simp)
  have hnoOpen : ∀ p q, ¬ openAdj g size p q := by
    rintro p q ⟨hin, hcase⟩
    rcases hcase with ⟨-, -, h3⟩ | ⟨-, -, h3⟩ | ⟨-, -, h3⟩ | ⟨-, -, h3⟩ <;>
      · rw [hw p] at h3
        exact absurd h3 (by simp [allWalls])
  refine ⟨?_, ?_, ⟨hsize, hsize⟩, ?_, ?_, ?_, ?_, ?_, ?_, ?_⟩
  · constructor
    · intro x y h1 h2
      rw [hw, hw]
      rfl
    · intro x y h1 h2
      rw [hw, hw]
      rfl
  · intro p hp hvp
    exact hw p
  · rw [hv, if_pos rfl]
  · intro p hp
    exact absurd hp (List.not_mem_nil p)
  · intro p hp
    exact absurd hp (List.not_mem_nil p)
  · have h0 : openEdgeCount g size = 0 := by
      unfold openEdgeCount
      rw [Finset.filter_false_of_mem, Finset.filter_false_of_mem]
      · simp
      · rintro p - ⟨-, hright⟩
        rw [hw p] at hright
        exact absurd hright (by simp [allWalls])
      · rintro p - ⟨-, hright⟩
        rw [hw p] at hright
        exact absurd hright (by simp [allWalls])
    have h1 : visitedCount g size = 1 := by
      unfold visitedCount
      have : (boundsFinset size).filter (fun p => (g p).visited = true) = {(0, 0)} := by
        ext p
        rw [Finset.mem_filter, Finset.mem_singleton]
        constructor
        · rintro ⟨-, hp⟩
          exact hvisOnly p hp
        · rintro rfl
          exact ⟨mem_boundsFinset.mpr ⟨hsize, hsize⟩, by rw [hv, if_pos rfl]⟩
      rw [this, Finset.card_singleton]
    rw [h0, h1]
  · intro p hp hvp
    rw [hvisOnly p hvp]
    exact Relation.ReflTransGen.refl
  · intro p hp hvp hst hne
    exact absurd (hvisOnly p hvp) hne
  · refine ⟨fun _ => 0, id, 1, ?_, ?_, ?_⟩
    · intro p _ _
      exact Nat.zero_lt_one
    · intro p q _ _ hpv hqv _
      rw [hvisOnly p hpv, hvisOnly q hqv]
    · intro p q hpq
      exact absurd hpq (hnoOpen p q)

theorem unvisitedCount_le (g : Grid) (size : ℕ) : unvisitedCount g size ≤ size * size := by
  unfold unvisitedCount
  calc ((boundsFinset size).filter _).card ≤ (boundsFinset size).card :=
        Finset.card_filter_le _ _
    _ = size * size := by
        unfold boundsFinset
        rw [Finset.card_product, Finset.card_range]

theorem carve_final (size : ℕ) (choice : ℕ → ℕ) (hsize : 0 < size) :
    CarveInv size (carveLoop size choice (2 * size * size + 1)
      ⟨setVisited initializeGrid (0, 0), [], (0, 0), 0⟩) ∧
    CarveDone size (carveLoop size choice (2 * size * size + 1)
      ⟨setVisited initializeGrid (0, 0), [], (0, 0), 0⟩) := by
  refine carveLoop_spec size choice _ _ (carveInv_init size hsize) ?_
  unfold carveMeasure
  have h1 := unvisitedCount_le (setVisited initializeGrid (0, 0)) size
  have h2 : 2 * size * size = 2 * (size * size) := by ring
  simp only [List.length_nil]
  omega

/-- Grid-graph reachability (ignoring walls). -/
theorem grid_reach (size : ℕ) :
    ∀ x y : ℕ, x < size → y < size →
      Relation.ReflTransGen
        (fun p q => InBounds size p ∧ q ∈ neighborCandidates size p) (0, 0) (x, y) := by
  have hx : ∀ x : ℕ, x < size →
      Relation.ReflTransGen
        (fun p q => InBounds size p ∧ q ∈ neighborCandidates size p) (0, 0) (x, 0) := by
    intro x
    induction x with
    | zero => intro _; exact Relation.ReflTransGen.refl
    | succ x ih =>
        intro hx1
        refine Relation.ReflTransGen.tail (ih (by omega)) ⟨⟨by omega, by omega⟩, ?_⟩
        exact mem_neighborCandidates.mpr (Or.inr (Or.inl ⟨by omega, rfl⟩))
  intro x y
  induction y with
  | zero => intro hx1 _; exact hx x hx1
  | succ y ih =>
      intro hx1 hy1
      refine Relation.ReflTransGen.tail (ih hx1 (by omega)) ⟨⟨by omega, by omega⟩, ?_⟩
      exact mem_neighborCandidates.mpr (Or.inr (Or.inr (Or.inl ⟨by omega, rfl⟩)))

theorem reflTransGen_crossing {α : Type*} {r : α → α → Prop} {P : α → Prop} :
    ∀ {a b : α}, Relation.ReflTransGen r a b → P a → ¬ P b →
      ∃ u v, r u v ∧ P u ∧ ¬ P v := by
  intro a b h hPa hPb
  induction h with
  | refl => exact absurd hPa hPb
  | @tail m c ham hmc ih =>
      by_cases hPm : P m
      · exact ⟨m, c, hmc, hPm, hPb⟩
      · exact ih hPm

theorem carve_all_visited (size : ℕ) (st : CarveState) (hinv : CarveInv size st)
    (hdone : CarveDone size st) :
    ∀ p, InBounds size p → (st.grid p).visited = true := by
  have hnone : ∀ p, InBounds size p → (st.grid p).visited = true →
      getUnvisitedNeighbors p st.grid size = [] := by
    intro p hin hvis
    by_cases hc : p = st.currentCell
    · rw [hc]
      exact hdone.2
    · exact hinv.finished p hin hvis (by rw [hdone.1]; exact List.not_mem_nil p) hc
  rintro ⟨x, y⟩ ⟨hx, hy⟩
  simp only at hx hy
  by_contra hvis
  have hv0 : (st.grid (0, 0)).visited = true := by
    have hr := hinv.reach st.currentCell hinv.curIn hinv.curVis
    rcases Relation.ReflTransGen.cases_head hr with heq | ⟨c, hc, -⟩
    · rw [heq]
      exact hinv.curVis
    · exact (openAdj_visited hinv.sym hinv.intact hc).1
  obtain ⟨u, v, ⟨huIn, hvcand⟩, hPu, hPv⟩ :=
    @reflTransGen_crossing _ _ (fun q => (st.grid q).visited = true) _ _
      (grid_reach size x y hx hy) hv0 hvis
  have hvv : (st.grid v).visited = false := by
    revert hPv
    cases (st.grid v).visited <;> simp
  have : v ∈ getUnvisitedNeighbors u st.grid size :=
    mem_getUnvisitedNeighbors.mpr ⟨hvcand, hvv⟩
  rw [hnone u huIn hPu] at this
  exact absurd this (List.not_mem_nil v)

/-! ### The open-wall graph and the spanning-tree property -/

/-- The open-wall graph on the `n × n` cell grid: two cells are adjacent
when the wall between them has been removed (symmetrized). -/
def mazeGraph (g : Grid) (n : ℕ) : SimpleGraph (Fin n × Fin n) where
  Adj u v := openAdj g n (u.1.1, u.2.1) (v.1.1, v.2.1) ∨
    openAdj g n (v.1.1, v.2.1) (u.1.1, u.2.1)
  symm := by
    intro u v h
    exact h.symm
  loopless := by
    intro u h
    rcases h with h | h <;> exact openAdj_ne h rfl

/-- A graph whose every edge joins a vertex to the recorded parent of its
later-stamped endpoint (timestamps injective) has no cycle: the
latest-stamped vertex of a cycle would have two distinct neighbors both
equal to its parent. -/
theorem isAcyclic_of_timestamps {V : Type*} [DecidableEq V] {G : SimpleGraph V}
    (t : V → ℕ) (par : V → V)
    (hinj : ∀ u v : V, t u = t v → u = v)
    (hedge : ∀ u v, G.Adj u v → (t u < t v ∧ par v = u) ∨ (t v < t u ∧ par u = v)) :
    G.IsAcyclic := by
  intro v0 c hc
  obtain ⟨w, hargmax⟩ : ∃ w, w ∈ c.support.argmax t := by
    cases harg : c.support.argmax t with
    | none => exact absurd (List.argmax_eq_none.mp harg) c.support_ne_nil
    | some w => exact ⟨w, rfl⟩
  have hwmem : w ∈ c.support := List.argmax_mem hargmax
  have hwmax : ∀ x ∈ c.support, t x ≤ t w := fun x hx => List.le_of_mem_argmax hx hargmax
  have hmemtail : ∀ x ∈ (c.rotate hwmem).support, x ∈ c.support := by
    intro x hx
    rw [(c.rotate hwmem).support_eq_cons] at hx
    rcases List.mem_cons.mp hx with rfl | hx
    · exact hwmem
    · have hperm := (SimpleGraph.Walk.support_rotate c hwmem).perm
      rw [c.support_eq_cons]
      exact List.mem_cons_of_mem _ (hperm.mem_iff.mp hx)
  obtain ⟨d, hdc, hdsup⟩ : ∃ d : G.Walk w w, d.IsCycle ∧ ∀ x ∈ d.support, t x ≤ t w :=
    ⟨c.rotate hwmem, hc.rotate hwmem, fun x hx => hwmax x (hmemtail x hx)⟩
  clear hmemtail hwmax hwmem hargmax hc
  cases d with
  | nil => exact SimpleGraph.Walk.IsCycle.not_of_nil hdc
  | cons hadj q =>
      rename_i m
      have hlen : 3 ≤ (SimpleGraph.Walk.cons hadj q).length := hdc.three_le_length
      have hqlen : 2 ≤ q.length := by
        simp only [SimpleGraph.Walk.length_cons] at hlen
        omega
      have hnodupq : q.support.Nodup := by
        have := hdc.support_nodup
        rwa [SimpleGraph.Walk.support_cons] at this
      have htm : t m < t w := by
        have hmem : m ∈ (SimpleGraph.Walk.cons hadj q).support := by
          rw [SimpleGraph.Walk.support_cons]
          exact List.mem_cons_of_mem _ q.start_mem_support
        have hle := hdsup m hmem
        have hne : m ≠ w := (hadj.ne).symm
        have : t m ≠ t w := fun h => hne (hinj m w h)
        omega
      have hparw_m : par w = m := by
        rcases hedge w m hadj with ⟨h1, -⟩ | ⟨-, h2⟩
        · omega
        · exact h2
      cases hqr : q.reverse with
      | nil =>
          exact absurd (congrArg SimpleGraph.Walk.length hqr)
            (by simp [SimpleGraph.Walk.length_reverse]; omega)
      | cons hadj' q' =>
          rename_i b
          have hbsup : b ∈ q.support := by
            have h1 : b ∈ q.reverse.support := by
              rw [hqr, SimpleGraph.Walk.support_cons]
              exact List.mem_cons_of_mem _ q'.start_mem_support
            rw [SimpleGraph.Walk.support_reverse] at h1
            exact List.mem_reverse.mp h1
          have htb : t b < t w := by
            have hmem : b ∈ (SimpleGraph.Walk.cons hadj q).support := by
              rw [SimpleGraph.Walk.support_cons]
              exact List.mem_cons_of_mem _ hbsup
            have hle := hdsup b hmem
            have hne : b ≠ w := (hadj'.ne).symm
            have : t b ≠ t w := fun h => hne (hinj b w h)
            omega
          have hparw_b : par w = b := by
            rcases hedge w b hadj' with ⟨h1, -⟩ | ⟨-, h2⟩
            · omega
            · exact h2
          have hmb : m = b := by rw [← hparw_m, hparw_b]
          -- q.support = q'.support.reverse ++ [w], and its head is m = b
          have hsup1 : q.support.reverse = w :: q'.support := by
            rw [← SimpleGraph.Walk.support_reverse, hqr, SimpleGraph.Walk.support_cons]
          have hsup2 : q.support = q'.support.reverse ++ [w] := by
            rw [← List.reverse_reverse q.support, hsup1]
            simp
          have hsup3 : q'.support = b :: q'.support.tail := q'.support_eq_cons
          have hsup4 : q.support = q'.support.tail.reverse ++ [b, w] := by
            rw [hsup2, hsup3]
            simp
          cases hL : q'.support.tail.reverse with
          | nil =>
              have : q.support.length = 2 := by
                rw [hsup4, hL]
                rfl
              rw [SimpleGraph.Walk.length_support] at this
              omega
          | cons x xs =>
              have hhead : q.support = m :: q.support.tail := q.support_eq_cons
              have hxm : x = m := by
                have h1 : q.support.head? = some m := by
                  rw [hhead]
                  rfl
                have h2 : q.support.head? = some x := by
                  rw [hsup4, hL]
                  rfl
                rw [h1] at h2
                exact (Option.some.inj h2).symm
              have hbmem : b ∈ xs ++ [b, w] := by
                simp
              have : ¬ q.support.Nodup := by
                rw [hsup4, hL, hxm, hmb]
                intro hnd
                exact (List.nodup_cons.mp hnd).1 hbmem
              exact this hnodupq

/-- Lift a coordinate pair into the vertex type. -/
def toVert (n : ℕ) (hn : 0 < n) (p : ℕ × ℕ) : Fin n × Fin n :=
  if h : p.1 < n ∧ p.2 < n then (⟨p.1, h.1⟩, ⟨p.2, h.2⟩) else (⟨0, hn⟩, ⟨0, hn⟩)

theorem toVert_coords {n : ℕ} (hn : 0 < n) (u : Fin n × Fin n) :
    toVert n hn (u.1.1, u.2.1) = u := by
  unfold toVert
  rw [dif_pos ⟨u.1.2, u.2.2⟩]

theorem reachable_of_reachOpen {g : Grid} {n : ℕ} {a b : ℕ × ℕ}
    (hr : ReachOpen g n a b) :
    ∀ (ha1 : a.1 < n) (ha2 : a.2 < n) (hb1 : b.1 < n) (hb2 : b.2 < n),
      (mazeGraph g n).Reachable (⟨a.1, ha1⟩, ⟨a.2, ha2⟩) (⟨b.1, hb1⟩, ⟨b.2, hb2⟩) := by
  induction hr with
  | refl =>
      intro ha1 ha2 hb1 hb2
      exact SimpleGraph.Reachable.refl _
  | @tail m c hm hmc ih =>
      intro ha1 ha2 hc1 hc2
      have hmIn := (openAdj_inBounds hmc).1
      have hadj : (mazeGraph g n).Adj (⟨m.1, hmIn.1⟩, ⟨m.2, hmIn.2⟩)
          (⟨c.1, hc1⟩, ⟨c.2, hc2⟩) := Or.inl hmc
      exact (ih ha1 ha2 hmIn.1 hmIn.2).trans hadj.reachable

/-- C1: for every `N ≥ 2` and every outcome of the random choices, carving
an `N×N` maze leaves the symmetric wall flags consistent, removes exactly
`N² - 1` wall-pairs, makes every cell reachable from every other cell
through open walls, and the open-wall graph is a spanning tree of the cell
grid (connected and acyclic). -/
theorem maze_carve_spanning_tree (n : ℕ) (choice : ℕ → ℕ) (hn : 2 ≤ n) :
    WallSym (recursiveBacktracker n choice) n ∧
    openEdgeCount (recursiveBacktracker n choice) n = n * n - 1 ∧
    (∀ p q, InBounds n p → InBounds n q →
      ReachOpen (recursiveBacktracker n choice) n p q) ∧
    (mazeGraph (recursiveBacktracker n choice) n).IsTree := by
  have hn0 : 0 < n := by omega
  obtain ⟨hinv, hdone⟩ := carve_final n choice hn0
  have hgr : recursiveBacktracker n choice =
      (carveLoop n choice (2 * n * n + 1)
        ⟨setVisited initializeGrid (0, 0), [], (0, 0), 0⟩).grid := rfl
  set st := carveLoop n choice (2 * n * n + 1)
    ⟨setVisited initializeGrid (0, 0), [], (0, 0), 0⟩ with hst
  have hall := carve_all_visited n st hinv hdone
  have hvc : visitedCount st.grid n = n * n := by
    unfold visitedCount
    rw [Finset.filter_true_of_mem]
    · unfold boundsFinset
      rw [Finset.card_product, Finset.card_range]
    · intro p hp
      exact hall p (mem_boundsFinset.mp hp)
  have hcount : openEdgeCount st.grid n = n * n - 1 := by
    have := hinv.count
    omega
  have hreach : ∀ p q, InBounds n p → InBounds n q → ReachOpen st.grid n p q := by
    intro p q hp hq
    have h1 := hinv.reach p hp (hall p hp)
    have h2 := hinv.reach q hq (hall q hq)
    have hsymm : Symmetric (openAdj st.grid n) := fun a b h => openAdj_symm hinv.sym h
    exact Relation.ReflTransGen.trans (Relation.ReflTransGen.symmetric hsymm h1) h2
  refine ⟨hgr ▸ hinv.sym, hgr ▸ hcount, hgr ▸ hreach, ?_, ?_⟩
  · -- connected
    rw [SimpleGraph.connected_iff]
    refine ⟨?_, ⟨(⟨0, hn0⟩, ⟨0, hn0⟩)⟩⟩
    intro u v
    have hru : ReachOpen st.grid n (u.1.1, u.2.1) (v.1.1, v.2.1) :=
      hreach _ _ ⟨u.1.2, u.2.2⟩ ⟨v.1.2, v.2.2⟩
    exact reachable_of_reachOpen hru u.1.2 u.2.2 v.1.2 v.2.2
  · -- acyclic
    obtain ⟨t, par, bound, hb, hinj, hedge⟩ := hinv.tree
    refine isAcyclic_of_timestamps (fun u => t (u.1.1, u.2.1))
      (fun u => toVert n hn0 (par (u.1.1, u.2.1))) ?_ ?_
    · intro u v htuv
      have hcu : InBounds n (u.1.1, u.2.1) := ⟨u.1.2, u.2.2⟩
      have hcv : InBounds n (v.1.1, v.2.1) := ⟨v.1.2, v.2.2⟩
      have := hinj _ _ hcu hcv (hall _ hcu) (hall _ hcv) htuv
      obtain ⟨h1, h2⟩ := Prod.mk.inj this
      refine Prod.ext ?_ ?_
      · exact Fin.ext h1
      · exact Fin.ext h2
    · intro u v hadj
      rcases hadj with h | h
      · rcases hedge _ _ h with ⟨h1, h2⟩ | ⟨h1, h2⟩
        · refine Or.inl ⟨h1, ?_⟩
          show toVert n hn0 (par (v.1.1, v.2.1)) = u
          rw [h2]
          exact toVert_coords hn0 u
        · refine Or.inr ⟨h1, ?_⟩
          show toVert n hn0 (par (u.1.1, u.2.1)) = v
          rw [h2]
          exact toVert_coords hn0 v
      · rcases hedge _ _ h with ⟨h1, h2⟩ | ⟨h1, h2⟩
        · refine Or.inr ⟨h1, ?_⟩
          show toVert n hn0 (par (u.1.1, u.2.1)) = v
          rw [h2]
          exact toVert_coords hn0 v
        · refine Or.inl ⟨h1, ?_⟩
          show toVert n hn0 (par (v.1.1, v.2.1)) = u
          rw [h2]
          exact toVert_coords hn0 u

theorem maze_carve_spanning_tree_witness :
    (2 : ℕ) ≤ 2 ∧ openEdgeCount (recursiveBacktracker 2 (fun _ => 0)) 2 = 2 * 2 - 1 :=
  ⟨le_refl 2, (maze_carve_spanning_tree 2 (fun _ => 0) (le_refl 2)).2.1⟩

/-! ### The breadth-first maze solver (`findSolutionPath`)

`findSolutionPath` resets the per-cell solving fields, runs a queue-based
breadth-first search from the start cell following open walls, recording a
parent back-reference on every newly reached cell, and on reaching the end
cell reconstructs the path by walking the parent chain and reversing it. -/

/-- The reset pass of `findSolutionPath`: clear `visitedForSolution` and
`parent` on every in-bounds cell. -/
def resetSolve (g : Grid) (size : ℕ) : Grid := fun p =>
  if InBounds size p then
    { g p with visitedForSolution := false, parent := none }
  else g p

/-- `startCell.visitedForSolution = true`. -/
def markStart (g : Grid) (p : ℕ × ℕ) : Grid :=
  setCell g p { g p with visitedForSolution := true }

/-- Mark one BFS neighbor: solution-visited, with a parent pointer to the
dequeued cell. -/
def markCell (cur : ℕ × ℕ) (g : Grid) (p : ℕ × ℕ) : Grid :=
  setCell g p { g p with visitedForSolution := true, parent := some cur }

/-- The open, not-yet-solution-visited neighbors collected by the BFS body,
in the code's order (top, right, bottom, left), reading the dequeued cell's
own wall flags. -/
def solveNeighbors (g : Grid) (size : ℕ) (p : ℕ × ℕ) : List (ℕ × ℕ) :=
  (if 0 < p.2 ∧ (g p).walls.top = false ∧
      (g (p.1, p.2 - 1)).visitedForSolution = false then [(p.1, p.2 - 1)] else []) ++
  (if p.1 < size - 1 ∧ (g p).walls.right = false ∧
      (g (p.1 + 1, p.2)).visitedForSolution = false then [(p.1 + 1, p.2)] else []) ++
  (if p.2 < size - 1 ∧ (g p).walls.bottom = false ∧
      (g (p.1, p.2 + 1)).visitedForSolution = false then [(p.1, p.2 + 1)] else []) ++
  (if 0 < p.1 ∧ (g p).walls.left = false ∧
      (g (p.1 - 1, p.2)).visitedForSolution = false then [(p.1 - 1, p.2)] else [])

/-- The BFS loop state: the grid with solution marks, the queue, and the
`solutionFound` flag. -/
structure SolveState where
  grid : Grid
  q : List (ℕ × ℕ)
  found : Bool

/-- One iteration of the BFS `while` body: dequeue; if the dequeued cell is
the end cell, set the found flag (the code `break`s); otherwise mark every
open unvisited neighbor with a parent pointer and enqueue it. -/
def solveStep (size : ℕ) (endCell : ℕ × ℕ) (st : SolveState) : SolveState :=
  match st.q with
  | [] => st
  | current :: rest =>
      if current = endCell then { st with q := rest, found := true }
      else
        let ns := solveNeighbors st.grid size current
        { grid := ns.foldl (markCell current) st.grid
          q := rest ++ ns
          found := st.found }

/-- The `while (q.length > 0)` loop with its `break` (fuel-indexed). -/
def solveLoop (size : ℕ) (endCell : ℕ × ℕ) : ℕ → SolveState → SolveState
  | 0, st => st
  | fuel + 1, st =>
      if st.found = true ∨ st.q = [] then st
      else solveLoop size endCell fuel (solveStep size endCell st)

/-- The reconstruction `while (curr.parent)` loop: collect coordinates
along the parent chain until a parentless cell (fuel-indexed). -/
def walkParents (g : Grid) : ℕ → (ℕ × ℕ) → List (ℕ × ℕ)
  | 0, _ => []
  | fuel + 1, curr =>
      match (g curr).parent with
      | none => []
      | some p => curr :: walkParents g fuel p

/-- `findSolutionPath`: on a nonempty grid, reset the solution marks, mark
and enqueue the start cell, BFS until the end cell is dequeued or the queue
empties, and if the end was found walk the parent chain back from the end,
append the start, and reverse; `2·size² + 1` loop fuel and `size² + 1`
chain fuel strictly exceed the actual iteration counts. -/
def findSolutionPath (g : Grid) (size : ℕ) (startCell endCell : ℕ × ℕ) :
    List (ℕ × ℕ) :=
  if size = 0 then []
  else
    let g0 := markStart (resetSolve g size) startCell
    let st := solveLoop size endCell (2 * size * size + 1) ⟨g0, [startCell], false⟩
    if st.found then
      (walkParents st.grid (size * size + 1) endCell ++ [startCell]).reverse
    else []

/-- A cell is `Marked` when it is in bounds and solution-visited. -/
def Marked (size : ℕ) (g : Grid) (p : ℕ × ℕ) : Prop :=
  InBounds size p ∧ (g p).visitedForSolution = true

/-- Number of in-bounds cells not yet solution-visited. -/
def solveFalseCount (g : Grid) (size : ℕ) : ℕ :=
  ((boundsFinset size).filter fun p => (g p).visitedForSolution = false).card

/-- Termination measure of the BFS loop. -/
def solveMeasure (size : ℕ) (st : SolveState) : ℕ :=
  solveFalseCount st.grid size + st.q.length

theorem markCell_same (cur : ℕ × ℕ) (g : Grid) (p : ℕ × ℕ) :
    markCell cur g p p = { g p with visitedForSolution := true, parent := some cur } := by
  unfold markCell
  exact setCell_same _ _ _

theorem markCell_other (cur : ℕ × ℕ) (g : Grid) (p q : ℕ × ℕ) (h : q ≠ p) :
    markCell cur g p q = g q := by
  unfold markCell
  exact setCell_other _ _ _ _ h

theorem foldl_markCell_not_mem (cur : ℕ × ℕ) :
    ∀ (l : List (ℕ × ℕ)) (g : Grid) (q : ℕ × ℕ), q ∉ l →
      l.foldl (markCell cur) g q = g q := by
  intro l
  induction l with
  | nil => intro g q _; rfl
  | cons a l ih =>
      intro g q hq
      rw [List.mem_cons] at hq
      push_neg at hq
      rw [List.foldl_cons, ih _ _ hq.2, markCell_other _ _ _ _ hq.1]

theorem foldl_markCell_mem (cur : ℕ × ℕ) :
    ∀ (l : List (ℕ × ℕ)) (g : Grid) (q : ℕ × ℕ), q ∈ l → l.Nodup →
      l.foldl (markCell cur) g q =
        { g q with visitedForSolution := true, parent := some cur } := by
  intro l
  induction l with
  | nil => intro g q hq _; exact absurd hq (List.not_mem_nil q)
  | cons a l ih =>
      intro g q hq hnd
      rw [List.nodup_cons] at hnd
      rw [List.foldl_cons]
      rcases List.mem_cons.mp hq with rfl | hql
      · rw [foldl_markCell_not_mem _ _ _ _ hnd.1, markCell_same]
      · have hqa : q ≠ a := by
          rintro rfl
          exact hnd.1 hql
        rw [ih _ _ hql hnd.2, markCell_other _ _ _ _ hqa]

theorem markCell_walls (cur : ℕ × ℕ) (g : Grid) (p q : ℕ × ℕ) :
    (markCell cur g p q).walls = (g q).walls := by
  by_cases h : q = p
  · subst h
    rw [markCell_same]
  · rw [markCell_other _ _ _ _ h]

theorem foldl_markCell_walls (cur : ℕ × ℕ) :
    ∀ (l : List (ℕ × ℕ)) (g : Grid) (q : ℕ × ℕ),
      ((l.foldl (markCell cur) g) q).walls = (g q).walls := by
  intro l
  induction l with
  | nil => intro g q; rfl
  | cons a l ih =>
      intro g q
      rw [List.foldl_cons, ih, markCell_walls]

theorem resetSolve_walls (g : Grid) (size : ℕ) (q : ℕ × ℕ) :
    (resetSolve g size q).walls = (g q).walls := by
  unfold resetSolve
  split_ifs <;> rfl

theorem markStart_walls (g : Grid) (p q : ℕ × ℕ) :
    (markStart g p q).walls = (g q).walls := by
  unfold markStart setCell
  split_ifs with h
  · subst h
    rfl
  · rfl

theorem mem_solveNeighbors {g : Grid} {size : ℕ} {p b : ℕ × ℕ}
    (hp : InBounds size p) :
    b ∈ solveNeighbors g size p ↔
      openAdj g size p b ∧ (g b).visitedForSolution = false := by
  obtain ⟨hp1, hp2⟩ := hp
  unfold solveNeighbors openAdj InBounds
  simp only [List.mem_append, mem_singleton_ite]
  constructor
  · rintro (((⟨⟨h1, h2, h3⟩, rfl⟩ | ⟨⟨h1, h2, h3⟩, rfl⟩) | ⟨⟨h1, h2, h3⟩, rfl⟩) |
      ⟨⟨h1, h2, h3⟩, rfl⟩)
    · exact ⟨⟨⟨hp1, hp2⟩, Or.inl ⟨h1, rfl, h2⟩⟩, h3⟩
    · exact ⟨⟨⟨hp1, hp2⟩, Or.inr (Or.inl ⟨by omega, rfl, h2⟩)⟩, h3⟩
    · exact ⟨⟨⟨hp1, hp2⟩, Or.inr (Or.inr (Or.inl ⟨by omega, rfl, h2⟩))⟩, h3⟩
    · exact ⟨⟨⟨hp1, hp2⟩, Or.inr (Or.inr (Or.inr ⟨h1, rfl, h2⟩))⟩, h3⟩
  · rintro ⟨⟨-, ⟨h1, rfl, h2⟩ | ⟨h1, rfl, h2⟩ | ⟨h1, rfl, h2⟩ | ⟨h1, rfl, h2⟩⟩, h3⟩
    · exact Or.inl (Or.inl (Or.inl ⟨⟨h1, h2, h3⟩, rfl⟩))
    · exact Or.inl (Or.inl (Or.inr ⟨⟨by omega, h2, h3⟩, rfl⟩))
    · exact Or.inl (Or.inr ⟨⟨by omega, h2, h3⟩, rfl⟩)
    · exact Or.inr ⟨⟨h1, h2, h3⟩, rfl⟩

theorem solveNeighbors_nodup (g : Grid) (size : ℕ) (p : ℕ × ℕ) :
    (solveNeighbors g size p).Nodup := by
  unfold solveNeighbors
  split_ifs <;>
    simp [List.nodup_cons, List.mem_cons, Prod.ext_iff] <;> omega

theorem foldl_markCell_vis (cur : ℕ × ℕ) :
    ∀ (l : List (ℕ × ℕ)) (g : Grid) (q : ℕ × ℕ), q ∈ l →
      ((l.foldl (markCell cur) g) q).visitedForSolution = true := by
  intro l
  induction l with
  | nil => intro g q hq; exact absurd hq (List.not_mem_nil q)
  | cons a l ih =>
      intro g q hq
      rw [List.foldl_cons]
      by_cases hql : q ∈ l
      · exact ih _ _ hql
      · have hqa : q = a := by
          rcases List.mem_cons.mp hq with h | h
          · exact h
          · exact absurd h hql
        subst hqa
        rw [foldl_markCell_not_mem _ _ _ _ hql, markCell_same]

theorem marked_foldl_markCell {size : ℕ} (cur : ℕ × ℕ) (l : List (ℕ × ℕ))
    (g : Grid) (hb : ∀ b ∈ l, InBounds size b) (p : ℕ × ℕ) :
    Marked size (l.foldl (markCell cur) g) p ↔ Marked size g p ∨ p ∈ l := by
  unfold Marked
  by_cases hpl : p ∈ l
  · refine ⟨fun _ => Or.inr hpl, fun _ => ⟨hb p hpl, foldl_markCell_vis _ _ _ _ hpl⟩⟩
  · rw [foldl_markCell_not_mem _ _ _ _ hpl]
    tauto

theorem solveFalseCount_foldl_markCell (size : ℕ) (cur : ℕ × ℕ) :
    ∀ (l : List (ℕ × ℕ)) (g : Grid), l.Nodup →
      (∀ b ∈ l, InBounds size b ∧ (g b).visitedForSolution = false) →
      solveFalseCount (l.foldl (markCell cur) g) size + l.length =
        solveFalseCount g size := by
  intro l
  induction l with
  | nil => intro g _ _; rfl
  | cons a l ih =>
      intro g hnd hprop
      rw [List.nodup_cons] at hnd
      have ha := hprop a (List.mem_cons_self a l)
      have hstep : solveFalseCount g size =
          solveFalseCount (markCell cur g a) size + 1 := by
        unfold solveFalseCount
        refine card_filter_succ_of_flip (mem_boundsFinset.mpr ha.1) ?_ ?_ ?_
        · rw [markCell_same]
          simp
        · exact ha.2
        · intro b _ hba
          rw [markCell_other _ _ _ _ hba]
      rw [List.foldl_cons, List.length_cons]
      have hrec := ih (markCell cur g a) hnd.2 ?_
      · omega
      · intro b hbl
        have hb := hprop b (List.mem_cons_of_mem _ hbl)
        refine ⟨hb.1, ?_⟩
        rw [markCell_other _ _ _ _ (by rintro rfl; exact hnd.1 hbl)]
        exact hb.2

/-- The BFS invariant, relative to a depth labelling `dep` of the marked
cells; `G` supplies the fixed wall flags, `s` is the start cell, `e` the
end cell. While the found flag is down: queue cells are marked; the queue
splits into a front block at depth `d` and a back block at depth `d + 1`;
a marked cell no longer in the queue has all its open-wall neighbors
marked; marked neighbors differ in depth by at most one; a marked end cell
is still in the queue. Once the flag is up, the end cell is marked and its
depth bounds the edge count of every open walk from the start. -/
structure SolveInvD (G : Grid) (size : ℕ) (s e : ℕ × ℕ) (dep : (ℕ × ℕ) → ℕ)
    (st : SolveState) : Prop where
  wallsEq : ∀ p, (st.grid p).walls = (G p).walls
  sMarked : Marked size st.grid s
  sDep : dep s = 0
  sParent : (st.grid s).parent = none
  chain : ∀ p, Marked size st.grid p → p ≠ s →
    ∃ q, (st.grid p).parent = some q ∧ Marked size st.grid q ∧
      openAdj G size q p ∧ dep p = dep q + 1
  depBound : ∀ p, Marked size st.grid p →
    dep p + solveFalseCount st.grid size ≤ size * size
  qMarked : st.found = false → ∀ p ∈ st.q, Marked size st.grid p
  sorted : st.found = false → ∃ d l1 l2, st.q = l1 ++ l2 ∧
    (∀ p ∈ l1, dep p = d) ∧ (∀ p ∈ l2, dep p = d + 1)
  closure : st.found = false → ∀ a, Marked size st.grid a → a ∉ st.q →
    ∀ b, openAdj G size a b → Marked size st.grid b
  adjDep : st.found = false → ∀ a b, Marked size st.grid a →
    Marked size st.grid b → openAdj G size a b → dep b ≤ dep a + 1
  notFound : st.found = false → Marked size st.grid e → e ∈ st.q
  foundOk : st.found = true → Marked size st.grid e ∧
    ∀ l : List (ℕ × ℕ), List.Chain' (openAdj G size) (s :: l) →
      (s :: l).getLast? = some e → dep e ≤ l.length

/-- The BFS invariant. -/
def SolveInv (G : Grid) (size : ℕ) (s e : ℕ × ℕ) (st : SolveState) : Prop :=
  ∃ dep, SolveInvD G size s e dep st

/-- The cut argument: every open walk ending at the end cell either stays
inside the marked region (where depths grow by at most one per step) or
first leaves it at a cell that is still queued and hence at depth at least
the end cell's. -/
theorem dep_le_walk {G : Grid} {size : ℕ} {dep : (ℕ × ℕ) → ℕ} {gr : Grid}
    {q : List (ℕ × ℕ)} {e : ℕ × ℕ}
    (hclosure : ∀ a, Marked size gr a → a ∉ q → ∀ b, openAdj G size a b →
      Marked size gr b)
    (hadjDep : ∀ a b, Marked size gr a → Marked size gr b →
      openAdj G size a b → dep b ≤ dep a + 1)
    (hqdep : ∀ p ∈ q, dep e ≤ dep p) :
    ∀ (l : List (ℕ × ℕ)) (a : ℕ × ℕ), Marked size gr a →
      List.Chain' (openAdj G size) (a :: l) → (a :: l).getLast? = some e →
      dep e ≤ dep a + l.length := by
  intro l
  induction l with
  | nil =>
      intro a _ _ hlast
      simp only [List.getLast?_singleton, Option.some.injEq] at hlast
      rw [← hlast]
      simp
  | cons b l ih =>
      intro a hma hchain hlast
      have hadj : openAdj G size a b := (List.chain'_cons.mp hchain).1
      have hchain' : List.Chain' (openAdj G size) (b :: l) :=
        (List.chain'_cons.mp hchain).2
      have hlast' : (b :: l).getLast? = some e := by
        rw [List.getLast?_cons_cons] at hlast
        exact hlast
      by_cases hmb : Marked size gr b
      · have h1 := ih b hmb hchain' hlast'
        have h2 := hadjDep a b hma hmb hadj
        simp only [List.length_cons]
        omega
      · by_cases haq : a ∈ q
        · have := hqdep a haq
          simp only [List.length_cons]
          omega
        · exact absurd (hclosure a hma haq b hadj) hmb

theorem solveInv_step (G : Grid) (size : ℕ) (s e : ℕ × ℕ) (hsym : WallSym G size)
    (st : SolveState) (hinv : SolveInv G size s e st)
    (hq : st.q ≠ []) (hnf : st.found = false) :
    SolveInv G size s e (solveStep size e st) ∧
    solveMeasure size (solveStep size e st) + 1 = solveMeasure size st := by
  obtain ⟨dep, hinv⟩ := hinv
  obtain ⟨gr, q0, fnd⟩ := st
  simp only at hq hnf
  subst hnf
  cases q0 with
  | nil => exact absurd rfl hq
  | cons cur rest =>
  have hcurM : Marked size gr cur :=
    hinv.qMarked rfl cur (List.mem_cons_self cur rest)
  obtain ⟨d, l1, l2, hqeq2, hd1, hd2⟩ := hinv.sorted rfl
  replace hqeq2 : cur :: rest = l1 ++ l2 := hqeq2
  have hmemq : ∀ p ∈ cur :: rest, dep p = d ∨ dep p = d + 1 := by
    intro p hp
    rw [hqeq2] at hp
    rcases List.mem_append.mp hp with h | h
    · exact Or.inl (hd1 p h)
    · exact Or.inr (hd2 p h)
  have hcur_cases : dep cur = d ∨ (l1 = [] ∧ dep cur = d + 1) := by
    cases l1 with
    | nil =>
        refine Or.inr ⟨rfl, ?_⟩
        rw [List.nil_append] at hqeq2
        exact hd2 cur (hqeq2 ▸ List.mem_cons_self cur rest)
    | cons x l1' =>
        rw [List.cons_append] at hqeq2
        injection hqeq2 with hcx hrest
        rw [hcx]
        exact Or.inl (hd1 x (List.mem_cons_self x l1'))
  have hfront : ∀ p ∈ cur :: rest, dep cur ≤ dep p := by
    intro p hp
    rcases hcur_cases with hdc | ⟨hl1, hdc⟩
    · rcases hmemq p hp with h | h <;> omega
    · subst hl1
      rw [List.nil_append] at hqeq2
      have : dep p = d + 1 := hd2 p (hqeq2 ▸ hp)
      omega
  by_cases hce : cur = e
  · -- the dequeued cell is the end cell: set the found flag and stop
    have hred : solveStep size e ⟨gr, cur :: rest, false⟩ = ⟨gr, rest, true⟩ := by
      simp [solveStep, hce]
    rw [hred]
    constructor
    · refine ⟨dep, ?_⟩
      refine ⟨hinv.wallsEq, hinv.sMarked, hinv.sDep, hinv.sParent, hinv.chain,
        hinv.depBound, (fun h => nomatch h), (fun h => nomatch h),
        (fun h => nomatch h), (fun h => nomatch h),
        (fun h => nomatch h), fun _ => ?_⟩
      refine ⟨hce ▸ hcurM, ?_⟩
      intro l hch hlast
      have hqdep : ∀ p ∈ cur :: rest, dep e ≤ dep p := by
        intro p hp
        rw [← hce]
        exact hfront p hp
      have := dep_le_walk (hinv.closure rfl) (hinv.adjDep rfl) hqdep l s
        hinv.sMarked hch hlast
      rw [hinv.sDep] at this
      omega
    · simp only [solveMeasure, List.length_cons]
      omega
  · -- ordinary step: mark and enqueue the open unvisited neighbors
    have hred : solveStep size e ⟨gr, cur :: rest, false⟩ =
        ⟨(solveNeighbors gr size cur).foldl (markCell cur) gr,
          rest ++ solveNeighbors gr size cur, false⟩ := by
      simp [solveStep, hce]
    rw [hred]
    set ns := solveNeighbors gr size cur with hns
    set g' := ns.foldl (markCell cur) gr with hg'
    have hoa : ∀ p q', openAdj G size p q' ↔ openAdj gr size p q' :=
      fun p q' => openAdj_walls_congr hinv.wallsEq
    have hns_char : ∀ b, b ∈ ns ↔ openAdj G size cur b ∧ ¬ Marked size gr b := by
      intro b
      rw [hns, mem_solveNeighbors hcurM.1]
      constructor
      · rintro ⟨h1, h2⟩
        refine ⟨(hoa _ _).mpr h1, fun hm => ?_⟩
        rw [hm.2] at h2
        exact absurd h2 (by decide)
      · rintro ⟨h1, h2⟩
        refine ⟨(hoa _ _).mp h1, ?_⟩
        have hbIn : InBounds size b := (openAdj_inBounds ((hoa _ _).mp h1)).2
        cases hv : (gr b).visitedForSolution
        · rfl
        · exact absurd ⟨hbIn, hv⟩ h2
    have hns_nodup : ns.Nodup := solveNeighbors_nodup gr size cur
    have hns_unmarked : ∀ b ∈ ns, ¬ Marked size gr b :=
      fun b hb => ((hns_char b).mp hb).2
    have hns_bounds : ∀ b ∈ ns, InBounds size b :=
      fun b hb => (openAdj_inBounds ((hns_char b).mp hb).1).2
    have hns_vis : ∀ b ∈ ns, (gr b).visitedForSolution = false := by
      intro b hb
      have hbIn := hns_bounds b hb
      cases hv : (gr b).visitedForSolution
      · rfl
      · exact absurd ⟨hbIn, hv⟩ (hns_unmarked b hb)
    have hMarked' : ∀ p, Marked size g' p ↔ Marked size gr p ∨ p ∈ ns :=
      marked_foldl_markCell cur ns gr hns_bounds
    have hg'_mem : ∀ p ∈ ns, g' p =
        { gr p with visitedForSolution := true, parent := some cur } :=
      fun p hp => foldl_markCell_mem cur ns gr p hp hns_nodup
    have hg'_not : ∀ p, p ∉ ns → g' p = gr p :=
      fun p hp => foldl_markCell_not_mem cur ns gr p hp
    have hfc : solveFalseCount g' size + ns.length = solveFalseCount gr size :=
      solveFalseCount_foldl_markCell size cur ns gr hns_nodup
        (fun b hb => ⟨hns_bounds b hb, hns_vis b hb⟩)
    have hwalls' : ∀ p, (g' p).walls = (G p).walls := by
      intro p
      rw [hg', foldl_markCell_walls]
      exact hinv.wallsEq p
    set dep' : (ℕ × ℕ) → ℕ := fun p => if p ∈ ns then dep cur + 1 else dep p
      with hdep'
    have hdep'_ns : ∀ p ∈ ns, dep' p = dep cur + 1 := by
      intro p hp
      rw [hdep']
      exact if_pos hp
    have hdep'_not : ∀ p, p ∉ ns → dep' p = dep p := by
      intro p hp
      rw [hdep']
      exact if_neg hp
    have hdep'_old : ∀ p, Marked size gr p → dep' p = dep p :=
      fun p hm => hdep'_not p (fun hin => hns_unmarked p hin hm)
    constructor
    · refine ⟨dep', ?_, ?_, ?_, ?_, ?_, ?_, ?_, ?_, ?_, ?_, ?_, ?_⟩
      · exact hwalls'
      · exact (hMarked' s).mpr (Or.inl hinv.sMarked)
      · rw [hdep'_old s hinv.sMarked]
        exact hinv.sDep
      · show (g' s).parent = none
        rw [hg'_not s (fun hin => hns_unmarked s hin hinv.sMarked)]
        exact hinv.sParent
      · intro p hp hps
        rcases (hMarked' p).mp hp with hpg | hpn
        · obtain ⟨q1, hpa, hqm, hadj, hdep⟩ := hinv.chain p hpg hps
          refine ⟨q1, ?_, (hMarked' q1).mpr (Or.inl hqm), hadj, ?_⟩
          · show (g' p).parent = some q1
            rw [hg'_not p (fun hin => hns_unmarked p hin hpg)]
            exact hpa
          · rw [hdep'_old p hpg, hdep'_old q1 hqm]
            exact hdep
        · refine ⟨cur, ?_, (hMarked' cur).mpr (Or.inl hcurM),
            ((hns_char p).mp hpn).1, ?_⟩
          · show (g' p).parent = some cur
            rw [hg'_mem p hpn]
          · rw [hdep'_ns p hpn, hdep'_old cur hcurM]
      · intro p hp
        show dep' p + solveFalseCount g' size ≤ size * size
        rcases (hMarked' p).mp hp with hpg | hpn
        · rw [hdep'_old p hpg]
          have h0 : dep p + solveFalseCount gr size ≤ size * size :=
            hinv.depBound p hpg
          omega
        · rw [hdep'_ns p hpn]
          have h1 : dep cur + solveFalseCount gr size ≤ size * size :=
            hinv.depBound cur hcurM
          have h2 : 0 < ns.length := List.length_pos.mpr (List.ne_nil_of_mem hpn)
          omega
      · intro _ p hp
        rcases List.mem_append.mp hp with h | h
        · exact (hMarked' p).mpr (Or.inl (hinv.qMarked rfl p
            (List.mem_cons_of_mem _ h)))
        · exact (hMarked' p).mpr (Or.inr h)
      · intro _
        cases hl1 : l1 with
        | nil =>
            subst hl1
            rw [List.nil_append] at hqeq2
            refine ⟨d + 1, rest, ns, rfl, ?_, ?_⟩
            · intro p hp
              have hpq : p ∈ cur :: rest := List.mem_cons_of_mem _ hp
              rw [hdep'_old p (hinv.qMarked rfl p hpq)]
              exact hd2 p (hqeq2 ▸ hpq)
            · intro p hp
              rw [hdep'_ns p hp]
              have : dep cur = d + 1 := hd2 cur (hqeq2 ▸ List.mem_cons_self cur rest)
              omega
        | cons x l1' =>
            subst hl1
            rw [List.cons_append] at hqeq2
            injection hqeq2 with hcx hrest
            refine ⟨d, l1', l2 ++ ns, ?_, ?_, ?_⟩
            · show rest ++ ns = l1' ++ (l2 ++ ns)
              rw [hrest, List.append_assoc]
            · intro p hp
              have hpl1 : p ∈ x :: l1' := List.mem_cons_of_mem _ hp
              have hpq : p ∈ cur :: rest := by
                rw [hrest]
                exact List.mem_cons_of_mem _ (List.mem_append_left _ hp)
              rw [hdep'_old p (hinv.qMarked rfl p hpq)]
              exact hd1 p hpl1
            · intro p hp
              rcases List.mem_append.mp hp with h | h
              · have hpq : p ∈ cur :: rest := by
                  rw [hrest]
                  exact List.mem_cons_of_mem _ (List.mem_append_right _ h)
                rw [hdep'_old p (hinv.qMarked rfl p hpq)]
                exact hd2 p h
              · rw [hdep'_ns p h]
                have : dep cur = d := by
                  rcases hcur_cases with hc | ⟨hc, -⟩
                  · exact hc
                  · exact absurd hc (by simp)
                omega
      · intro _ a ha hanq b hadj
        rcases (hMarked' a).mp ha with hag | han
        · by_cases hac : a = cur
          · subst hac
            by_cases hmb : Marked size gr b
            · exact (hMarked' b).mpr (Or.inl hmb)
            · exact (hMarked' b).mpr (Or.inr ((hns_char b).mpr ⟨hadj, hmb⟩))
          · have hnotq : a ∉ cur :: rest := by
              intro hmem
              rcases List.mem_cons.mp hmem with h | h
              · exact hac h
              · exact hanq (List.mem_append_left _ h)
            exact (hMarked' b).mpr
              (Or.inl (hinv.closure rfl a hag hnotq b hadj))
        · exact absurd (List.mem_append_right _ han) hanq
      · intro _ a b ha hb hadj
        rcases (hMarked' a).mp ha with hag | han <;>
          rcases (hMarked' b).mp hb with hbg | hbn
        · rw [hdep'_old a hag, hdep'_old b hbg]
          exact hinv.adjDep rfl a b hag hbg hadj
        · rw [hdep'_old a hag, hdep'_ns b hbn]
          have haq : a ∈ cur :: rest := by
            by_contra hnq
            exact hns_unmarked b hbn (hinv.closure rfl a hag hnq b hadj)
          have := hfront a haq
          omega
        · rw [hdep'_ns a han, hdep'_old b hbg]
          have hadj' : openAdj G size b a := openAdj_symm hsym hadj
          have hbq : b ∈ cur :: rest := by
            by_contra hnq
            exact hns_unmarked a han (hinv.closure rfl b hbg hnq a hadj')
          have h1 := hmemq b hbq
          have h2 : d ≤ dep cur := by
            rcases hcur_cases with hc | ⟨-, hc⟩ <;> omega
          rcases h1 with h | h <;> omega
        · rw [hdep'_ns a han, hdep'_ns b hbn]
          omega
      · intro _ hMe
        rcases (hMarked' e).mp hMe with heg | hen
        · have := hinv.notFound rfl heg
          rcases List.mem_cons.mp this with h | h
          · exact absurd h.symm hce
          · exact List.mem_append_left _ h
        · exact List.mem_append_right _ hen
      · intro h
        exact nomatch h
    · simp only [solveMeasure, List.length_append, List.length_cons]
      omega

theorem markStart_at (g : Grid) (p : ℕ × ℕ) :
    markStart g p p = { g p with visitedForSolution := true } := by
  unfold markStart
  exact setCell_same _ _ _

theorem markStart_other (g : Grid) (p q : ℕ × ℕ) (h : q ≠ p) :
    markStart g p q = g q := by
  unfold markStart
  exact setCell_other _ _ _ _ h

theorem resetSolve_at (g : Grid) (size : ℕ) (p : ℕ × ℕ) (h : InBounds size p) :
    resetSolve g size p =
      { g p with visitedForSolution := false, parent := none } := by
  unfold resetSolve
  exact if_pos h

theorem marked_init (G : Grid) (size : ℕ) (s : ℕ × ℕ) (hs : InBounds size s)
    (p : ℕ × ℕ) :
    Marked size (markStart (resetSolve G size) s) p ↔ p = s := by
  constructor
  · rintro ⟨hin, hvis⟩
    by_contra hps
    rw [markStart_other _ _ _ hps, resetSolve_at _ _ _ hin] at hvis
    simp at hvis
  · rintro rfl
    refine ⟨hs, ?_⟩
    rw [markStart_at]

theorem solveFalseCount_le (g : Grid) (size : ℕ) :
    solveFalseCount g size ≤ size * size := by
  unfold solveFalseCount
  calc ((boundsFinset size).filter _).card ≤ (boundsFinset size).card :=
        Finset.card_filter_le _ _
    _ = size * size := by
        unfold boundsFinset
        rw [Finset.card_product, Finset.card_range]

theorem solveInv_init (G : Grid) (size : ℕ) (s e : ℕ × ℕ) (hs : InBounds size s) :
    SolveInv G size s e ⟨markStart (resetSolve G size) s, [s], false⟩ := by
  have hfcle := solveFalseCount_le (markStart (resetSolve G size) s) size
  refine ⟨fun _ => 0, ?_, ?_, ?_, ?_, ?_, ?_, ?_, ?_, ?_, ?_, ?_, ?_⟩
  · intro p
    show ((markStart (resetSolve G size) s) p).walls = (G p).walls
    rw [markStart_walls, resetSolve_walls]
  · exact (marked_init G size s hs s).mpr rfl
  · rfl
  · show ((markStart (resetSolve G size) s) s).parent = none
    rw [markStart_at, resetSolve_at _ _ _ hs]
  · intro p hp hps
    exact absurd ((marked_init G size s hs p).mp hp) hps
  · intro p _
    show 0 + solveFalseCount (markStart (resetSolve G size) s) size ≤ size * size
    omega
  · intro _ p hp
    have : p = s := List.mem_singleton.mp hp
    rw [this]
    exact (marked_init G size s hs s).mpr rfl
  · intro _
    exact ⟨0, [s], [], rfl, fun p _ => rfl,
      fun p hp => absurd hp (List.not_mem_nil p)⟩
  · intro _ a ha hanq b hadj
    have haS : a = s := (marked_init G size s hs a).mp ha
    subst haS
    exact absurd (List.mem_singleton_self a) hanq
  · intro _ a b _ _ _
    exact Nat.le_succ 0
  · intro _ hMe
    have : e = s := (marked_init G size s hs e).mp hMe
    rw [this]
    exact List.mem_singleton_self s
  · exact fun h => nomatch h

theorem solveLoop_spec (G : Grid) (size : ℕ) (s e : ℕ × ℕ)
    (hsym : WallSym G size) :
    ∀ (fuel : ℕ) (st : SolveState), SolveInv G size s e st →
      solveMeasure size st < fuel →
      SolveInv G size s e (solveLoop size e fuel st) ∧
      ((solveLoop size e fuel st).found = true ∨
        (solveLoop size e fuel st).q = []) := by
  intro fuel
  induction fuel with
  | zero =>
      intro st _ h
      exact absurd h (Nat.not_lt_zero _)
  | succ fuel ih =>
      intro st hinv hfuel
      simp only [solveLoop]
      by_cases hcond : st.found = true ∨ st.q = []
      · rw [if_pos hcond]
        exact ⟨hinv, hcond⟩
      · rw [if_neg hcond]
        push_neg at hcond
        have hnf : st.found = false := by
          cases h : st.found
          · rfl
          · exact absurd h hcond.1
        obtain ⟨hinv', hmeas⟩ :=
          solveInv_step G size s e hsym st hinv hcond.2 hnf
        exact ih _ hinv' (by omega)

theorem walkParents_spec (gr G : Grid) (size : ℕ) (s : ℕ × ℕ)
    (dep : (ℕ × ℕ) → ℕ)
    (hchain : ∀ p, Marked size gr p → p ≠ s →
      ∃ q, (gr p).parent = some q ∧ Marked size gr q ∧ openAdj G size q p ∧
        dep p = dep q + 1)
    (hsParent : (gr s).parent = none) (hsDep : dep s = 0) :
    ∀ (k : ℕ) (p : ℕ × ℕ), Marked size gr p → dep p = k →
      ∀ fuel, k ≤ fuel →
        (walkParents gr fuel p).length = k ∧
        List.Chain' (openAdj G size) ((walkParents gr fuel p ++ [s]).reverse) ∧
        ((walkParents gr fuel p ++ [s]).reverse).getLast? = some p := by
  intro k
  induction k with
  | zero =>
      intro p hp hdep fuel _
      have hps : p = s := by
        by_contra hne
        obtain ⟨q, -, -, -, hd⟩ := hchain p hp hne
        omega
      subst hps
      have hwp : walkParents gr fuel p = [] := by
        cases fuel with
        | zero => rfl
        | succ f => simp [walkParents, hsParent]
      rw [hwp]
      refine ⟨rfl, ?_, ?_⟩
      · simp
      · simp
  | succ k ih =>
      intro p hp hdep fuel hfuel
      have hps : p ≠ s := by
        intro h
        rw [h, hsDep] at hdep
        exact absurd hdep (by omega)
      obtain ⟨q, hpar, hqm, hadj, hd⟩ := hchain p hp hps
      have hdq : dep q = k := by omega
      obtain ⟨fuel', rfl⟩ : ∃ f, fuel = f + 1 := ⟨fuel - 1, by omega⟩
      have hwp : walkParents gr (fuel' + 1) p = p :: walkParents gr fuel' q := by
        simp [walkParents, hpar]
      rw [hwp]
      obtain ⟨hlen, hch, hlast⟩ := ih q hqm hdq fuel' (by omega)
      refine ⟨?_, ?_, ?_⟩
      · simp [hlen]
      · rw [List.cons_append, List.reverse_cons, List.chain'_append]
        refine ⟨hch, List.chain'_singleton p, ?_⟩
        intro x hx y hy
        rw [hlast] at hx
        simp only [Option.mem_some_iff] at hx
        simp only [List.head?_cons, Option.mem_some_iff] at hy
        rw [← hx, ← hy]
        exact hadj
      · rw [List.cons_append, List.reverse_cons, List.getLast?_concat]

/-- C2: for every `N ≥ 2` and every outcome of the random choices,
`findSolutionPath` on the carved `N×N` maze from `(0,0)` to `(N-1,N-1)`
returns a non-empty path in start-to-goal order: its first element is
`(0,0)`, its last is `(N-1,N-1)`, consecutive cells are grid-adjacent
through an open (removed) wall, and no open walk between those cells uses
fewer cells (the breadth-first search finds a shortest path). -/
theorem maze_solution_path_correct (n : ℕ) (choice : ℕ → ℕ) (hn : 2 ≤ n) :
    findSolutionPath (recursiveBacktracker n choice) n (0, 0) (n - 1, n - 1) ≠ [] ∧
    (findSolutionPath (recursiveBacktracker n choice) n (0, 0)
      (n - 1, n - 1)).head? = some (0, 0) ∧
    (findSolutionPath (recursiveBacktracker n choice) n (0, 0)
      (n - 1, n - 1)).getLast? = some (n - 1, n - 1) ∧
    List.Chain' (openAdj (recursiveBacktracker n choice) n)
      (findSolutionPath (recursiveBacktracker n choice) n (0, 0) (n - 1, n - 1)) ∧
    ∀ l : List (ℕ × ℕ), l ≠ [] → l.head? = some (0, 0) →
      l.getLast? = some (n - 1, n - 1) →
      List.Chain' (openAdj (recursiveBacktracker n choice) n) l →
      (findSolutionPath (recursiveBacktracker n choice) n (0, 0)
        (n - 1, n - 1)).length ≤ l.length := by
  have hn0 : 0 < n := by omega
  set G := recursiveBacktracker n choice with hG
  obtain ⟨hcinv, hcdone⟩ := carve_final n choice hn0
  have hgr : G = (carveLoop n choice (2 * n * n + 1)
      ⟨setVisited initializeGrid (0, 0), [], (0, 0), 0⟩).grid := rfl
  have hsym : WallSym G n := by
    rw [hgr]
    exact hcinv.sym
  have hall := carve_all_visited n _ hcinv hcdone
  have hsIn : InBounds n (0, 0) := ⟨hn0, hn0⟩
  have heIn : InBounds n (n - 1, n - 1) := ⟨by omega, by omega⟩
  have hreach : ReachOpen G n (0, 0) (n - 1, n - 1) := by
    rw [hgr]
    exact hcinv.reach (n - 1, n - 1) heIn (hall _ heIn)
  set stF := solveLoop n (n - 1, n - 1) (2 * n * n + 1)
    ⟨markStart (resetSolve G n) (0, 0), [(0, 0)], false⟩ with hstF
  have hnn : 1 ≤ n * n := Nat.mul_pos hn0 hn0
  have h2nn : 2 * n * n = 2 * (n * n) := by ring
  have hmeas : solveMeasure n
      ⟨markStart (resetSolve G n) (0, 0), [(0, 0)], false⟩ < 2 * n * n + 1 := by
    have hfc := solveFalseCount_le (markStart (resetSolve G n) (0, 0)) n
    simp only [solveMeasure, List.length_singleton]
    omega
  obtain ⟨⟨dep, hF⟩, hexit⟩ := solveLoop_spec G n (0, 0) (n - 1, n - 1) hsym
    (2 * n * n + 1) ⟨markStart (resetSolve G n) (0, 0), [(0, 0)], false⟩
    (solveInv_init G n (0, 0) (n - 1, n - 1) hsIn) hmeas
  rw [← hstF] at hF hexit
  have hfound : stF.found = true := by
    rcases hexit with h | hqnil
    · exact h
    · cases hfnd : stF.found
      · exfalso
        have hmarkede : Marked n stF.grid (n - 1, n - 1) := by
          have hstep : ∀ p, ReachOpen G n (0, 0) p → Marked n stF.grid p := by
            intro p hr
            induction hr with
            | refl => exact hF.sMarked
            | tail hm hmc ihm =>
                exact hF.closure hfnd _ ihm
                  (by rw [hqnil]; exact List.not_mem_nil _) _ hmc
          exact hstep _ hreach
        have := hF.notFound hfnd hmarkede
        rw [hqnil] at this
        exact absurd this (List.not_mem_nil _)
      · rfl
  obtain ⟨hMe, hmin⟩ := hF.foundOk hfound
  have hdepe : dep (n - 1, n - 1) ≤ n * n + 1 := by
    have := hF.depBound _ hMe
    omega
  obtain ⟨hlen, hch, hlast⟩ := walkParents_spec stF.grid G n (0, 0) dep
    hF.chain hF.sParent hF.sDep (dep (n - 1, n - 1)) (n - 1, n - 1) hMe rfl
    (n * n + 1) hdepe
  have hpath : findSolutionPath G n (0, 0) (n - 1, n - 1) =
      (walkParents stF.grid (n * n + 1) (n - 1, n - 1) ++ [(0, 0)]).reverse := by
    simp only [findSolutionPath]
    rw [if_neg (show ¬ n = 0 by omega), ← hstF, if_pos hfound]
  rw [hpath]
  have hplen : ((walkParents stF.grid (n * n + 1) (n - 1, n - 1) ++
      [(0, 0)]).reverse).length = dep (n - 1, n - 1) + 1 := by
    rw [List.length_reverse, List.length_append, hlen]
    rfl
  refine ⟨?_, ?_, hlast, hch, ?_⟩
  · intro h
    rw [h] at hplen
    exact absurd hplen.symm (by simp)
  · rw [List.head?_reverse, List.getLast?_concat]
  · intro l hlne hlhead hllast hlchain
    cases l with
    | nil => exact absurd rfl hlne
    | cons a l' =>
        have haS : a = (0, 0) := by
          simp only [List.head?_cons, Option.some.injEq] at hlhead
          exact hlhead
        subst haS
        have := hmin l' hlchain hllast
        rw [hplen, List.length_cons]
        omega

theorem maze_solution_path_correct_witness :
    (2 : ℕ) ≤ 2 ∧
      findSolutionPath (recursiveBacktracker 2 (fun _ => 0)) 2 (0, 0)
        (2 - 1, 2 - 1) ≠ [] :=
  ⟨le_refl 2, (maze_solution_path_correct 2 (fun _ => 0) (le_refl 2)).1⟩

end Plotcraft
